import Mathlib

set_option maxHeartbeats 1000000

namespace Xml2Go

/-- Decoded XML attribute: the local name / value pair of Go xml.Attr, which is
all the source reads. -/
structure XMLAttr where
  name : String
  value : String
deriving DecidableEq

/-- Decoded XML document node: the Go struct named node in the source
(XMLName.Local, Attrs, Content, Nodes). -/
inductive XMLNode where
  | mk (name : String) (attrs : List XMLAttr) (content : String) (nodes : List XMLNode)

def XMLNode.name : XMLNode → String
  | .mk n _ _ _ => n

def XMLNode.attrs : XMLNode → List XMLAttr
  | .mk _ a _ _ => a

def XMLNode.content : XMLNode → String
  | .mk _ _ c _ => c

def XMLNode.nodes : XMLNode → List XMLNode
  | .mk _ _ _ k => k

/-- Schema node: the Go struct NodeDesc. The Parent back-reference is not part
of the pure tree value; where the source walks Parent pointers (qualified
names, the root test) the embedding passes the ancestor chain explicitly. -/
inductive NodeDesc where
  | mk (name : String) (isArray : Bool) (hasCharacterData : Bool)
      (attributes : List String) (children : List NodeDesc)

def NodeDesc.name : NodeDesc → String
  | .mk n _ _ _ _ => n

def NodeDesc.isArray : NodeDesc → Bool
  | .mk _ i _ _ _ => i

def NodeDesc.hasCharacterData : NodeDesc → Bool
  | .mk _ _ h _ _ => h

def NodeDesc.attributes : NodeDesc → List String
  | .mk _ _ _ a _ => a

def NodeDesc.children : NodeDesc → List NodeDesc
  | .mk _ _ _ _ c => c

mutual

def NodeDesc.decEq : (x y : NodeDesc) → Decidable (x = y)
  | .mk n1 i1 h1 a1 c1, .mk n2 i2 h2 a2 c2 =>
    if h : n1 = n2 ∧ i1 = i2 ∧ h1 = h2 ∧ a1 = a2 then
      match NodeDesc.decEqList c1 c2 with
      | isTrue hc => isTrue (by rw [h.1, h.2.1, h.2.2.1, h.2.2.2, hc])
      | isFalse hc => isFalse (by
          intro he
          injection he with e1 e2 e3 e4 e5
          exact hc e5)
    else
      isFalse (by
        intro he
        injection he with e1 e2 e3 e4 e5
        exact h ⟨e1, e2, e3, e4⟩)

def NodeDesc.decEqList : (x y : List NodeDesc) → Decidable (x = y)
  | [], [] => isTrue rfl
  | [], _ :: _ => isFalse (by simp)
  | _ :: _, [] => isFalse (by simp)
  | a :: as', b :: bs =>
    match NodeDesc.decEq a b, NodeDesc.decEqList as' bs with
    | isTrue h1, isTrue h2 => isTrue (by rw [h1, h2])
    | isFalse h1, _ => isFalse (by
        intro he
        injection he with e1 e2
        exact h1 e1)
    | _, isFalse h2 => isFalse (by
        intro he
        injection he with e1 e2
        exact h2 e2)

end

instance : DecidableEq NodeDesc := NodeDesc.decEq

mutual

def XMLNode.decEq : (x y : XMLNode) → Decidable (x = y)
  | .mk n1 a1 c1 k1, .mk n2 a2 c2 k2 =>
    if h : n1 = n2 ∧ a1 = a2 ∧ c1 = c2 then
      match XMLNode.decEqList k1 k2 with
      | isTrue hc => isTrue (by rw [h.1, h.2.1, h.2.2, hc])
      | isFalse hc => isFalse (by
          intro he
          injection he with e1 e2 e3 e4
          exact hc e4)
    else
      isFalse (by
        intro he
        injection he with e1 e2 e3 e4
        exact h ⟨e1, e2, e3⟩)

def XMLNode.decEqList : (x y : List XMLNode) → Decidable (x = y)
  | [], [] => isTrue rfl
  | [], _ :: _ => isFalse (by simp)
  | _ :: _, [] => isFalse (by simp)
  | a :: as', b :: bs =>
    match XMLNode.decEq a b, XMLNode.decEqList as' bs with
    | isTrue h1, isTrue h2 => isTrue (by rw [h1, h2])
    | isFalse h1, _ => isFalse (by
        intro he
        injection he with e1 e2
        exact h1 e1)
    | _, isFalse h2 => isFalse (by
        intro he
        injection he with e1 e2
        exact h2 e2)

end

instance : DecidableEq XMLNode := XMLNode.decEq

/-- The empty root schema node owned by a fresh XMLConverter (New). -/
def emptyRoot : NodeDesc := .mk "" false false [] []

/-- A fresh child created by getOrAddChild. -/
def freshNode (name : String) : NodeDesc := .mk name false false [] []

/-- NodeDesc.containsAttribute from the source. -/
def containsAttribute (attrs : List String) (name : String) : Bool :=
  attrs.contains name

/-- One step of the attribute loop of XMLConverter.parse: an attribute with an
empty value is skipped, otherwise its name is appended unless present. -/
def recordAttr (attrs : List String) (a : XMLAttr) : List String :=
  if a.value = "" then attrs
  else if containsAttribute attrs a.name then attrs else attrs ++ [a.name]

/-- The attribute loop of XMLConverter.parse. -/
def recordAttrs (attrs : List String) (as' : List XMLAttr) : List String :=
  as'.foldl recordAttr attrs

/-- node.countChildrenWithName from the source, over an explicit sibling
list. -/
def countName (l : List XMLNode) (name : String) : Nat :=
  (l.filter (fun c => c.name == name)).length

/-- bytes.TrimSpace from the source, over the character list (whitespace
stripped from both ends). -/
def trimmedContent (content : String) : List Char :=
  ((content.toList.dropWhile Char.isWhitespace).reverse.dropWhile Char.isWhitespace).reverse

/-- The character-data test of XMLConverter.parse: trimmed content nonempty and
not starting with the markup delimiter (bytes.HasPrefix with "<"). -/
def contentFlag (content : String) : Bool :=
  match trimmedContent content with
  | [] => false
  | c :: _ => c != '<'

def setArrayFlag (f : Bool) (c : NodeDesc) : NodeDesc :=
  .mk c.name (c.isArray || f) c.hasCharacterData c.attributes c.children

/-- The grandChild.IsArray update of XMLConverter.parse, applied to the first
child of the given name (the node getOrAddChild returned). -/
def markArray (cs : List NodeDesc) (name : String) (f : Bool) : List NodeDesc :=
  match cs with
  | [] => []
  | c :: r => if c.name = name then setArrayFlag f c :: r else c :: markArray r name f

mutual

/-- getOrAddChild combined with the body of XMLConverter.parse, as a pure
transformer of the parent children list: fold document element d into the
first child named d.name, appending a fresh child when absent. -/
def parseList (d : XMLNode) (cs : List NodeDesc) : List NodeDesc :=
  match cs with
  | [] => [updateNode d (freshNode d.name)]
  | c :: r => if c.name = d.name then updateNode d c :: r else c :: parseList d r
termination_by (sizeOf d, 2, sizeOf cs)

/-- The per-node body of XMLConverter.parse: character-data flag, attribute
loop, then the child loop. -/
def updateNode : XMLNode → NodeDesc → NodeDesc
  | .mk _ ats ct kids, c =>
    parseKids kids kids
      (.mk c.name c.isArray (c.hasCharacterData || contentFlag ct)
        (recordAttrs c.attributes ats) c.children)
termination_by d _ => (sizeOf d, 1, 0)

/-- The child loop of XMLConverter.parse: recursively parse each child element
under c, then OR the returned grandchild isArray flag with the sibling
count test. -/
def parseKids (all : List XMLNode) (subs : List XMLNode) (c : NodeDesc) : NodeDesc :=
  match subs with
  | [] => c
  | s :: rest =>
    let c2 := parseNode s c
    let c3 := NodeDesc.mk c2.name c2.isArray c2.hasCharacterData c2.attributes
      (markArray c2.children s.name (decide (countName all s.name > 1)))
    parseKids all rest c3
termination_by (sizeOf subs, 3, 0)

/-- XMLConverter.parse(d, parent): returns the parent with d folded into the
child named d.name. -/
def parseNode (d : XMLNode) (parent : NodeDesc) : NodeDesc :=
  .mk parent.name parent.isArray parent.hasCharacterData parent.attributes
    (parseList d parent.children)
termination_by (sizeOf d, 4, 0)

end

/-- One ParseXML* call on an already decoded document (the decoder is the
external collaborator): fold the document into the converter root. -/
def ingest (root : NodeDesc) (d : XMLNode) : NodeDesc := parseNode d root

/-- A sequence of ParseXML* calls on one converter. -/
def ingestAll (root : NodeDesc) (ds : List XMLNode) : NodeDesc := ds.foldl ingest root

/-- One step of the attribute loop of combineNodes. -/
def addAttr (acc : List String) (x : String) : List String :=
  if containsAttribute acc x then acc else acc ++ [x]

mutual

/-- combineNodes from the source. The panic on unequal names is modelled as
none. -/
def combineNodes (a b : NodeDesc) : Option NodeDesc :=
  match b with
  | .mk nm i h ats kids =>
    if a.name = nm then
      match combineChildren a.children kids with
      | some cs => some (.mk a.name (a.isArray || i)
          (a.hasCharacterData || h)
          (ats.foldl addAttr a.attributes) cs)
      | none => none
    else none
termination_by (sizeOf b, 1, 0)

/-- The child loop of combineNodes: fold every child of b into the child list
of a. -/
def combineChildren (as' : List NodeDesc) (bs : List NodeDesc) : Option (List NodeDesc) :=
  match bs with
  | [] => some as'
  | cb :: rest =>
    match insertChild as' cb with
    | some as2 => combineChildren as2 rest
    | none => none
termination_by (sizeOf bs, 2, 0)

/-- One step of the child loop of combineNodes: getChildIndex then either merge
in place or append (the re-parenting is not part of the pure value). -/
def insertChild (as' : List NodeDesc) (cb : NodeDesc) : Option (List NodeDesc) :=
  match as' with
  | [] => some [cb]
  | a :: rest =>
    if a.name = cb.name then
      match combineNodes a cb with
      | some m => some (m :: rest)
      | none => none
    else
      match insertChild rest cb with
      | some r => some (a :: r)
      | none => none
termination_by (sizeOf cb, 2, sizeOf as')

end

mutual

/-- Total twin of combineNodes for the equal-name fragment (on that fragment
combineNodes never takes its none branch; see combineNodes_eq_total). -/
def combineNodesT (a b : NodeDesc) : NodeDesc :=
  match b with
  | .mk _ i h ats kids =>
    .mk a.name (a.isArray || i) (a.hasCharacterData || h)
      (ats.foldl addAttr a.attributes)
      (combineChildrenT a.children kids)
termination_by (sizeOf b, 1, 0)

def combineChildrenT (as' : List NodeDesc) (bs : List NodeDesc) : List NodeDesc :=
  match bs with
  | [] => as'
  | cb :: rest => combineChildrenT (insertChildT as' cb) rest
termination_by (sizeOf bs, 2, 0)

def insertChildT (as' : List NodeDesc) (cb : NodeDesc) : List NodeDesc :=
  match as' with
  | [] => [cb]
  | a :: rest =>
    if a.name = cb.name then combineNodesT a cb :: rest
    else a :: insertChildT rest cb
termination_by (sizeOf cb, 2, sizeOf as')

end

mutual

/-- copyNode from the source (the parent pointer bookkeeping is not part of
the pure value). -/
def copyNode (n : NodeDesc) : NodeDesc :=
  match n with
  | .mk nm i h ats kids => .mk nm i h ats (copyChildren kids)
termination_by (sizeOf n, 1)

def copyChildren (cs : List NodeDesc) : List NodeDesc :=
  match cs with
  | [] => []
  | c :: r => copyNode c :: copyChildren r
termination_by (sizeOf cs, 2)

end

/-- Combine / combine from the source: deep-copy both converter roots and merge
the copy of b into the copy of a. -/
def Combine (a b : NodeDesc) : Option NodeDesc :=
  combineNodes (copyNode a) (copyNode b)

mutual

/-- sameStructure from the source: character data flag, attribute sequences,
children names in order, then each child pair recursively; node names are
not compared. -/
def sameStructure (a b : NodeDesc) : Bool :=
  match a with
  | .mk _ _ h ats kids =>
    h == b.hasCharacterData &&
    ats == b.attributes &&
    (kids.map NodeDesc.name) == (b.children.map NodeDesc.name) &&
    sameChildren kids b.children
termination_by (sizeOf a, 1)

def sameChildren (as' : List NodeDesc) (bs : List NodeDesc) : Bool :=
  match as', bs with
  | [], [] => true
  | a :: ar, b :: br => sameStructure a b && sameChildren ar br
  | _, _ => false
termination_by (sizeOf as', 2)

end

/-- Lexicographic order on character lists: the Go string comparison used by
sort.Strings and the child sort (UTF-8 byte order agrees with code-point
order). -/
def charsLt : List Char → List Char → Bool
  | [], [] => false
  | [], _ :: _ => true
  | _ :: _, [] => false
  | c :: cr, d :: dr => if c < d then true else if d < c then false else charsLt cr dr

/-- Go string less-than. -/
def strLt (a b : String) : Bool := charsLt a.toList b.toList

/-- Go string less-or-equal. -/
def strLe (a b : String) : Bool := !(strLt b a)

/-- The attribute sort order of sortNode (sort.Strings). -/
def attrLe (x y : String) : Prop := strLe x y = true

instance : DecidableRel attrLe := fun _ _ => inferInstanceAs (Decidable (_ = true))

/-- The child sort order of sortNode (sort.Slice by Name). -/
def childLe (x y : NodeDesc) : Prop := strLe x.name y.name = true

instance : DecidableRel childLe := fun _ _ => inferInstanceAs (Decidable (_ = true))

mutual

/-- sortNode from the source: sort the attributes, sort the children by name,
recurse into every child. Go sort.Slice is an unsorted-stability sort; on
the duplicate-free child names the sorted list is unique, and equal
attribute strings are interchangeable, so insertion sort is a faithful
model. Sorting preserves names, so sorting the child list and then
recursing equals recursing and then sorting. -/
def sortNode (n : NodeDesc) : NodeDesc :=
  match n with
  | .mk nm i h ats kids =>
    .mk nm i h (ats.insertionSort attrLe) ((sortMap kids).insertionSort childLe)
termination_by (sizeOf n, 1)

def sortMap (cs : List NodeDesc) : List NodeDesc :=
  match cs with
  | [] => []
  | c :: r => sortNode c :: sortMap r
termination_by (sizeOf cs, 2)

end

/-- goIdent from the source: keep letters, digits and underscores, strip
leading digits, capitalize the first character (ASCII fragment of the Go
unicode classes). -/
def goIdent (s : String) : String :=
  let kept := s.toList.filter (fun r => r.isAlpha || r.isDigit || r == '_')
  let r := kept.dropWhile (fun c => c.isDigit)
  match r with
  | [] => ""
  | c :: rest => String.mk (c.toUpper :: rest)

/-- The qualified type name of generate: the sanitized names of the ancestor
chain (outermost first, synthetic root excluded) and of the node itself,
joined with the separator. -/
def qualName (anc : List String) (name : String) : String :=
  anc.foldr (fun p acc => goIdent p ++ "_" ++ acc) (goIdent name)

/-- The while loop of uniqueGoIdent: append underscores while the identifier
is taken. The fuel covers the loop: seen.length + 1 candidates of strictly
increasing length cannot all be members of seen (freshen_spec below). -/
def freshen (fuel : Nat) (seen : List String) (id : String) : String :=
  match fuel with
  | 0 => id
  | f + 1 => if id ∈ seen then freshen f seen (id ++ "_") else id

/-- uniqueGoIdent from the source: sanitize, disambiguate against the names
used in this record body, record the result. -/
def uniqueGoIdent (seen : List String) (name : String) : String × List String :=
  let id := freshen (seen.length + 1) seen (goIdent name)
  (id, seen ++ [id])

/-- getKnownType from generate: scan the already-emitted (node, type name)
pairs for one whose node is sameStructure to the candidate. The Go map
iteration order is arbitrary; the embedding scans in insertion order (see
the determinism theorems for order independence). -/
def getKnownType (kt : List (NodeDesc × String)) (n : NodeDesc) : Option String :=
  (kt.find? (fun p => sameStructure n p.1)).map (fun p => p.2)

/-- The attribute loop of generate. -/
def attrLoop (seen : List String) : List String → (String × List String)
  | [] => ("", seen)
  | a :: r =>
    let (id, seen2) := uniqueGoIdent seen a
    let (txt, seen3) := attrLoop seen2 r
    ("\t" ++ id ++ " string `xml:\"" ++ a ++ ",attr\"`\n" ++ txt, seen3)

/-- The child-field loop of generate: assign the field identifier, pick the
deduplicated type name when a known structure matches (skip flag true) or
register the fresh qualified type name. Returns the emitted lines, the
updated registry and the skipChildGen flags. -/
def childLoop (nodeName : String) (seen : List String) (kt : List (NodeDesc × String)) :
    List NodeDesc → (String × List (NodeDesc × String) × List Bool)
  | [] => ("", kt, [])
  | child :: rest =>
    let slice := if child.isArray then "[]" else ""
    let (childIdent, seen2) := uniqueGoIdent seen child.name
    match getKnownType kt child with
    | some typeName =>
      let line := "\t" ++ childIdent ++ " " ++ slice ++ typeName ++
        " `xml:\"" ++ child.name ++ "\"`\n"
      let (txt, kt2, flags) := childLoop nodeName seen2 kt rest
      (line ++ txt, kt2, true :: flags)
    | none =>
      let childType := nodeName ++ "_" ++ goIdent child.name
      let line := "\t" ++ childIdent ++ " " ++ slice ++ childType ++
        " `xml:\"" ++ child.name ++ "\"`\n"
      let (txt, kt2, flags) := childLoop nodeName seen2 (kt ++ [(child, childType)]) rest
      (line ++ txt, kt2, false :: flags)

mutual

/-- generate from the source: emit the record for n (XMLName header only for
top-level nodes, content field, attributes, child fields), then recurse
into the children whose types were freshly assigned. -/
def generate (anc : List String) (kt : List (NodeDesc × String)) (n : NodeDesc) :
    String × List (NodeDesc × String) :=
  match n with
  | .mk nm _ h ats kids =>
    let nodeName := qualName anc nm
    let head := "type " ++ nodeName ++ " struct \x7b\n"
    let xmlnameLine :=
      if anc.isEmpty then "\tXMLName xml.Name `xml:\"" ++ nm ++ "\"`\n" else ""
    let seen0 : List String := []
    let cl :=
      if h then
        let p := uniqueGoIdent seen0 "Content"
        ("\t" ++ p.1 ++ " string `xml:\",innerxml\"`\n", p.2)
      else ("", seen0)
    let al := attrLoop cl.2 ats
    let cf := childLoop nodeName al.2 kt kids
    let sub := genRec (anc ++ [nm]) cf.2.1 kids cf.2.2
    (head ++ xmlnameLine ++ cl.1 ++ al.1 ++ cf.1 ++ "\x7d\n\n" ++ sub.1, sub.2)
termination_by (sizeOf n, 1)

/-- The recursion loop of generate over the children, honouring the
skipChildGen flags. -/
def genRec (anc : List String) (kt : List (NodeDesc × String)) :
    List NodeDesc → List Bool → String × List (NodeDesc × String)
  | [], _ => ("", kt)
  | _ :: cr, true :: fr => genRec anc kt cr fr
  | c :: cr, false :: fr =>
    let g := generate anc kt c
    let r := genRec anc g.2 cr fr
    (g.1 ++ r.1, r.2)
  | c :: cr, [] =>
    let g := generate anc kt c
    let r := genRec anc g.2 cr []
    (g.1 ++ r.1, r.2)
termination_by cs _ => (sizeOf cs, 2)

end

/-- GenerateGoCodeBytes from the source, up to the external gofmt pass
(go/format is the excluded formatter of spec section 1, a function of this
text): optional package header, then every child of the sorted deep copy
of the root, sharing one knownTypes registry. -/
def generateGoCode (packageName : String) (root : NodeDesc) : String :=
  let header := if packageName = "" then "" else
    "package " ++ packageName ++ "\n\nimport \"encoding/xml\"\n\n"
  let r := sortNode (copyNode root)
  header ++ (genRec [] [] r.children []).1

@[simp] theorem NodeDesc.name_mk (n i h a c) : (NodeDesc.mk n i h a c).name = n := rfl

@[simp] theorem NodeDesc.isArray_mk (n i h a c) : (NodeDesc.mk n i h a c).isArray = i := rfl

@[simp] theorem NodeDesc.hasCharacterData_mk (n i h a c) :
    (NodeDesc.mk n i h a c).hasCharacterData = h := rfl

@[simp] theorem NodeDesc.attributes_mk (n i h a c) : (NodeDesc.mk n i h a c).attributes = a := rfl

@[simp] theorem NodeDesc.children_mk (n i h a c) : (NodeDesc.mk n i h a c).children = c := rfl

@[simp] theorem XMLNode.docName_mk (n a c k) : (XMLNode.mk n a c k).name = n := rfl

@[simp] theorem XMLNode.attrs_mk (n a c k) : (XMLNode.mk n a c k).attrs = a := rfl

@[simp] theorem XMLNode.content_mk (n a c k) : (XMLNode.mk n a c k).content = c := rfl

@[simp] theorem XMLNode.nodes_mk (n a c k) : (XMLNode.mk n a c k).nodes = k := rfl

theorem NodeDesc.ext_mk (n : NodeDesc) :
    n = NodeDesc.mk n.name n.isArray n.hasCharacterData n.attributes n.children := by
  cases n
  rfl

/-- ParseXMLReader from the source, on the result of the external decoder: a
decode error is returned before parse runs; on success the document is
folded into the converter root (the detached returned pointer is not part
of the pure state). -/
def parseXMLReader (root : NodeDesc) (decoded : Except String XMLNode) :
    NodeDesc × Except String Unit :=
  match decoded with
  | .error e => (root, .error e)
  | .ok d => (parseNode d root, .ok ())

/-- C8: when decoding fails, ParseXMLReader returns the error to the caller and
the schema tree is exactly what it was before the call: the error return
happens before parse touches the tree. -/
theorem decode_failure_leaves_tree_unchanged (root : NodeDesc) (e : String) :
    parseXMLReader root (.error e) = (root, .error e) := rfl

/-- C7: merging two schema nodes whose names differ does not produce a merged
node: combineNodes takes the panic branch, modelled as none. -/
theorem combine_name_mismatch_fails (a b : NodeDesc) (h : a.name ≠ b.name) :
    combineNodes a b = none := by
  cases b with
  | mk nm i hc ats kids =>
    rw [combineNodes]
    simp only [NodeDesc.name_mk] at h
    simp [h]

/-- Witness for C7 at concrete nodes with different names. -/
theorem combine_name_mismatch_fails_witness :
    combineNodes (NodeDesc.mk "x" false false [] []) (NodeDesc.mk "y" false false [] []) = none :=
  combine_name_mismatch_fails (NodeDesc.mk "x" false false [] [])
    (NodeDesc.mk "y" false false [] []) (by decide)

theorem sameChildren_iff (as' bs : List NodeDesc) :
    sameChildren as' bs = true ↔
      List.Forall₂ (fun a b => sameStructure a b = true) as' bs := by
  induction as' generalizing bs with
  | nil =>
    cases bs with
    | nil => simp [sameChildren]
    | cons b br => simp [sameChildren]
  | cons a ar ih =>
    cases bs with
    | nil => simp [sameChildren]
    | cons b br =>
      rw [sameChildren]
      simp [List.forall₂_cons, ih]

/-- C2: sameStructure x y holds exactly when the record-body data agree:
equal hasCharacterData flags, equal attribute sequences, equal child names
in order (hence equal child counts), and each corresponding child pair
itself sameStructure. The nodes own names do not occur in the condition. -/
theorem sameStructure_spec (x y : NodeDesc) :
    sameStructure x y = true ↔
      (x.hasCharacterData = y.hasCharacterData ∧
       x.attributes = y.attributes ∧
       x.children.map NodeDesc.name = y.children.map NodeDesc.name ∧
       List.Forall₂ (fun a b => sameStructure a b = true) x.children y.children) := by
  cases x with
  | mk nm i h ats kids =>
    rw [sameStructure]
    simp [sameChildren_iff, and_assoc]

theorem XMLNode.sizeOf_nodes_lt (d : XMLNode) : sizeOf d.nodes < sizeOf d := by
  cases d with
  | mk n a c k => simp [XMLNode.nodes]

theorem NodeDesc.sizeOf_children_lt (n : NodeDesc) : sizeOf n.children < sizeOf n := by
  cases n with
  | mk nm i h a c => simp [NodeDesc.children]

/-- Fact preservation between schema nodes: same name, true flags stay true,
attributes stay recorded, every child keeps a grown counterpart. -/
def Grows (x y : NodeDesc) : Prop :=
  x.name = y.name ∧
  (x.isArray = true → y.isArray = true) ∧
  (x.hasCharacterData = true → y.hasCharacterData = true) ∧
  (∀ a ∈ x.attributes, a ∈ y.attributes) ∧
  (∀ c ∈ x.children, ∃ c2 ∈ y.children, Grows c c2)
termination_by sizeOf x
decreasing_by
  have h1 := List.sizeOf_lt_of_mem (show c ∈ x.children by assumption)
  have h2 := NodeDesc.sizeOf_children_lt x
  omega

theorem grows_intro (x y : NodeDesc)
    (hn : x.name = y.name)
    (hi : x.isArray = true → y.isArray = true)
    (hh : x.hasCharacterData = true → y.hasCharacterData = true)
    (ha : ∀ a ∈ x.attributes, a ∈ y.attributes)
    (hc : ∀ c ∈ x.children, ∃ c2 ∈ y.children, Grows c c2) : Grows x y := by
  rw [Grows]
  exact ⟨hn, hi, hh, ha, hc⟩

theorem grows_elim {x y : NodeDesc} (h : Grows x y) :
    x.name = y.name ∧
    (x.isArray = true → y.isArray = true) ∧
    (x.hasCharacterData = true → y.hasCharacterData = true) ∧
    (∀ a ∈ x.attributes, a ∈ y.attributes) ∧
    (∀ c ∈ x.children, ∃ c2 ∈ y.children, Grows c c2) := by
  rw [Grows] at h
  exact h

theorem grows_refl (x : NodeDesc) : Grows x x := by
  suffices h : ∀ N x, sizeOf x = N → Grows x x from h (sizeOf x) x rfl
  intro N
  induction N using Nat.strong_induction_on with
  | _ N ih =>
    intro x hN
    refine grows_intro x x rfl id id (fun a ha => ha) (fun c hc => ⟨c, hc, ?_⟩)
    refine ih (sizeOf c) ?_ c rfl
    have := (List.sizeOf_lt_of_mem hc).trans (NodeDesc.sizeOf_children_lt x)
    omega

theorem grows_trans : ∀ {x y z : NodeDesc}, Grows x y → Grows y z → Grows x z := by
  suffices h : ∀ N x y z, Grows x y → Grows y z → sizeOf x = N → Grows x z by
    intro x y z hxy hyz
    exact h (sizeOf x) x y z hxy hyz rfl
  intro N
  induction N using Nat.strong_induction_on with
  | _ N ih =>
    intro x y z hxy hyz hN
    obtain ⟨n1, a1, h1, t1, c1⟩ := grows_elim hxy
    obtain ⟨n2, a2, h2, t2, c2⟩ := grows_elim hyz
    refine grows_intro x z (n1.trans n2) (fun h => a2 (a1 h)) (fun h => h2 (h1 h))
      (fun a ha => t2 a (t1 a ha)) (fun c hc => ?_)
    obtain ⟨cy, hcy, hg⟩ := c1 c hc
    obtain ⟨cz, hcz, hg2⟩ := c2 cy hcy
    refine ⟨cz, hcz, ih (sizeOf c) ?_ c cy cz hg hg2 rfl⟩
    have := (List.sizeOf_lt_of_mem hc).trans (NodeDesc.sizeOf_children_lt x)
    omega

theorem grows_setArrayFlag (f : Bool) (c : NodeDesc) : Grows c (setArrayFlag f c) := by
  cases c with
  | mk nm i h a k =>
    refine grows_intro _ _ rfl ?_ id (fun a ha => ha) (fun c hc => ⟨c, ?_, grows_refl c⟩)
    · simp [setArrayFlag]
      intro hi
      simp [hi]
    · simpa [setArrayFlag] using hc

theorem grows_markArray (cs : List NodeDesc) (nm : String) (f : Bool) :
    ∀ c ∈ cs, ∃ c2 ∈ markArray cs nm f, Grows c c2 := by
  induction cs with
  | nil => simp
  | cons c r ih =>
    intro x hx
    rw [markArray]
    by_cases hc : c.name = nm
    · simp only [if_pos hc]
      rcases List.mem_cons.mp hx with hx | hx
      · subst hx
        exact ⟨setArrayFlag f x, List.mem_cons_self _ _, grows_setArrayFlag f x⟩
      · exact ⟨x, List.mem_cons_of_mem _ hx, grows_refl x⟩
    · simp only [if_neg hc]
      rcases List.mem_cons.mp hx with hx | hx
      · subst hx
        exact ⟨x, List.mem_cons_self _ _, grows_refl x⟩
      · obtain ⟨c2, hc2, hg⟩ := ih x hx
        exact ⟨c2, List.mem_cons_of_mem _ hc2, hg⟩

theorem mem_recordAttr (attrs : List String) (x : XMLAttr) :
    ∀ a ∈ attrs, a ∈ recordAttr attrs x := by
  intro a ha
  rw [recordAttr]
  split
  · exact ha
  · split
    · exact ha
    · exact List.mem_append_left _ ha

theorem mem_recordAttrs (attrs : List String) (xs : List XMLAttr) :
    ∀ a ∈ attrs, a ∈ recordAttrs attrs xs := by
  induction xs generalizing attrs with
  | nil => intro a ha; simpa [recordAttrs] using ha
  | cons x r ih =>
    intro a ha
    have hstep : recordAttrs attrs (x :: r) = recordAttrs (recordAttr attrs x) r := by
      simp [recordAttrs]
    rw [hstep]
    exact ih (recordAttr attrs x) a (mem_recordAttr attrs x a ha)

theorem grows_markArray_node (cc : NodeDesc) (nm : String) (f : Bool) :
    Grows cc (.mk cc.name cc.isArray cc.hasCharacterData cc.attributes
      (markArray cc.children nm f)) := by
  refine grows_intro _ _ (by simp) (fun h => by simpa using h) (fun h => by simpa using h)
    (fun a ha => by simpa using ha) ?_
  intro c hc
  simpa using grows_markArray cc.children nm f c hc

theorem grows_parse_aux : ∀ N, ∀ d : XMLNode, sizeOf d ≤ N →
    (∀ c, Grows c (updateNode d c)) ∧
    (∀ cs (c : NodeDesc), c ∈ cs → ∃ c2 ∈ parseList d cs, Grows c c2) := by
  intro N
  induction N using Nat.strong_induction_on with
  | _ N ih =>
    intro d hd
    have hparseNode : ∀ s : XMLNode, sizeOf s < sizeOf d → ∀ p, Grows p (parseNode s p) := by
      intro s hs p
      have h := ih (sizeOf s) (by omega) s (le_refl _)
      rw [parseNode]
      refine grows_intro _ _ (by simp) (fun hh => by simpa using hh)
        (fun hh => by simpa using hh) (fun a ha => by simpa using ha) ?_
      intro c hc
      simp only [NodeDesc.children_mk]
      exact h.2 p.children c (by simpa using hc)
    have hkids : ∀ (all subs : List XMLNode), (∀ s ∈ subs, sizeOf s < sizeOf d) →
        ∀ c, Grows c (parseKids all subs c) := by
      intro all subs
      induction subs with
      | nil =>
        intro _ c
        rw [parseKids]
        exact grows_refl c
      | cons s rest ihs =>
        intro hsub c
        rw [parseKids]
        exact grows_trans (hparseNode s (hsub s (by simp)) c)
          (grows_trans
            (grows_markArray_node (parseNode s c) s.name
              (decide (countName all s.name > 1)))
            (ihs (fun t ht => hsub t (by simp [ht])) _))
    have hupd : ∀ c, Grows c (updateNode d c) := by
      intro c
      cases d with
      | mk nm ats ct kids =>
        rw [updateNode]
        have h1 : Grows c (.mk c.name c.isArray (c.hasCharacterData || contentFlag ct)
            (recordAttrs c.attributes ats) c.children) := by
          refine grows_intro _ _ (by simp) (fun hh => by simpa using hh)
            (fun hh => by simp [hh]) ?_ ?_
          · intro a ha
            simpa using mem_recordAttrs c.attributes ats a ha
          · intro cc hcc
            exact ⟨cc, by simpa using hcc, grows_refl cc⟩
        refine grows_trans h1 (hkids kids kids ?_ _)
        intro s hs
        have h2 := List.sizeOf_lt_of_mem hs
        have h3 : sizeOf kids < sizeOf (XMLNode.mk nm ats ct kids) := by simp
        omega
    refine ⟨hupd, ?_⟩
    intro cs
    induction cs with
    | nil => intro c hc; simp at hc
    | cons c0 r ihc =>
      intro c hc
      rw [parseList]
      by_cases h0 : c0.name = d.name
      · simp only [if_pos h0]
        rcases List.mem_cons.mp hc with rfl | hc2
        · exact ⟨updateNode d c, List.mem_cons_self _ _, hupd c⟩
        · exact ⟨c, List.mem_cons_of_mem _ hc2, grows_refl c⟩
      · simp only [if_neg h0]
        rcases List.mem_cons.mp hc with rfl | hc2
        · exact ⟨c, List.mem_cons_self _ _, grows_refl c⟩
        · obtain ⟨c2, hc2m, hg⟩ := ihc c hc2
          exact ⟨c2, List.mem_cons_of_mem _ hc2m, hg⟩

theorem grows_parseNode (d : XMLNode) (t : NodeDesc) : Grows t (parseNode d t) := by
  have h := grows_parse_aux (sizeOf d) d (le_refl _)
  rw [parseNode]
  refine grows_intro _ _ (by simp) (fun hh => by simpa using hh)
    (fun hh => by simpa using hh) (fun a ha => by simpa using ha) ?_
  intro c hc
  simp only [NodeDesc.children_mk]
  exact h.2 t.children c hc

/-- C4: accumulation is monotone. Every fact recorded in the schema tree (an
isArray flag set true, a hasCharacterData flag set true, a recorded
attribute name, a recorded child node) survives any single further
ingestion and any further sequence of ingestions, in any order: parse only
ORs flags and appends to lists. -/
theorem ingestion_is_monotone :
    (∀ (t : NodeDesc) (d : XMLNode), Grows t (ingest t d)) ∧
    (∀ (t : NodeDesc) (ds : List XMLNode), Grows t (ingestAll t ds)) := by
  constructor
  · intro t d
    exact grows_parseNode d t
  · intro t ds
    induction ds generalizing t with
    | nil => exact grows_refl t
    | cons d r ihd =>
      have h1 : ingestAll t (d :: r) = ingestAll (ingest t d) r := by
        simp [ingestAll, ingest]
      rw [h1]
      exact grows_trans (grows_parseNode d t) (ihd (ingest t d))

/-- Walk a path of element names down from a schema node, first match by name
at each step (the lookup discipline of getOrAddChild). -/
def lookupPath : NodeDesc → List String → Option NodeDesc
  | n, [] => some n
  | n, p :: rest =>
    match n.children.find? (fun c => c.name == p) with
    | some c => lookupPath c rest
    | none => none

/-- The document element supplies attribute a with a nonempty value on some
instance reached by the given path of element names below it. -/
def Supplies (d : XMLNode) (path : List String) (a : String) : Prop :=
  match path with
  | [] => ∃ v, XMLAttr.mk a v ∈ d.attrs ∧ v ≠ ""
  | p :: rest => ∃ c ∈ d.nodes, c.name = p ∧ Supplies c rest a

/-- The document supplies attribute a at an absolute path (first component is
the document root element name). -/
def SuppliesDoc (d : XMLNode) (path : List String) (a : String) : Prop :=
  match path with
  | [] => False
  | p :: rest => d.name = p ∧ Supplies d rest a

/-- Attribute a is recorded at the given path of the schema tree. -/
def RA (t : NodeDesc) (path : List String) (a : String) : Prop :=
  ∃ nd, lookupPath t path = some nd ∧ a ∈ nd.attributes

theorem mem_recordAttr_iff (attrs : List String) (x : XMLAttr) (a : String) :
    a ∈ recordAttr attrs x ↔ a ∈ attrs ∨ (x.name = a ∧ x.value ≠ "") := by
  rw [recordAttr]
  by_cases hv : x.value = ""
  · simp [hv]
  · simp only [if_neg hv]
    by_cases hc : containsAttribute attrs x.name
    · have hmem : x.name ∈ attrs := by
        simpa [containsAttribute, List.contains_iff_exists_mem_beq, beq_iff_eq] using hc
      simp only [if_pos hc]
      constructor
      · intro h
        exact Or.inl h
      · rintro (h | ⟨hn, _⟩)
        · exact h
        · exact hn ▸ hmem
    · simp only [if_neg hc, List.mem_append, List.mem_singleton]
      constructor
      · rintro (h | h)
        · exact Or.inl h
        · exact Or.inr ⟨h.symm, hv⟩
      · rintro (h | ⟨hn, _⟩)
        · exact Or.inl h
        · exact Or.inr hn.symm

theorem mem_recordAttrs_iff (xs : List XMLAttr) (attrs : List String) (a : String) :
    a ∈ recordAttrs attrs xs ↔ a ∈ attrs ∨ ∃ v, XMLAttr.mk a v ∈ xs ∧ v ≠ "" := by
  induction xs generalizing attrs with
  | nil => simp [recordAttrs]
  | cons x r ih =>
    have hstep : recordAttrs attrs (x :: r) = recordAttrs (recordAttr attrs x) r := by
      simp [recordAttrs]
    rw [hstep, ih, mem_recordAttr_iff]
    constructor
    · rintro ((h | ⟨hn, hv⟩) | ⟨v, hv, hne⟩)
      · exact Or.inl h
      · refine Or.inr ⟨x.value, ?_, hv⟩
        have : x = XMLAttr.mk a x.value := by
          cases x
          simp at hn ⊢
          exact hn
        exact this ▸ List.mem_cons_self _ _
      · exact Or.inr ⟨v, List.mem_cons_of_mem _ hv, hne⟩
    · rintro (h | ⟨v, hv, hne⟩)
      · exact Or.inl (Or.inl h)
      · rcases List.mem_cons.mp hv with rfl | hv2
        · exact Or.inl (Or.inr ⟨rfl, hne⟩)
        · exact Or.inr ⟨v, hv2, hne⟩

theorem parseNode_eq (d : XMLNode) (t : NodeDesc) :
    parseNode d t = .mk t.name t.isArray t.hasCharacterData t.attributes
      (parseList d t.children) := by
  rw [parseNode]

theorem parseKids_shape (all subs : List XMLNode) :
    ∀ c : NodeDesc, ∃ cs2, parseKids all subs c =
      .mk c.name c.isArray c.hasCharacterData c.attributes cs2 := by
  induction subs with
  | nil =>
    intro c
    refine ⟨c.children, ?_⟩
    rw [parseKids]
    exact NodeDesc.ext_mk c
  | cons s rest ih =>
    intro c
    rw [parseKids]
    obtain ⟨cs2, h⟩ := ih (NodeDesc.mk (parseNode s c).name (parseNode s c).isArray
      (parseNode s c).hasCharacterData (parseNode s c).attributes
      (markArray (parseNode s c).children s.name (decide (countName all s.name > 1))))
    refine ⟨cs2, ?_⟩
    rw [h, parseNode_eq]
    simp

theorem RA_nil (n : NodeDesc) (a : String) : RA n [] a ↔ a ∈ n.attributes := by
  simp [RA, lookupPath]

theorem RA_cons (n : NodeDesc) (p : String) (rest : List String) (a : String) :
    RA n (p :: rest) a ↔
      ∃ c, n.children.find? (fun c => c.name == p) = some c ∧ RA c rest a := by
  cases hf : n.children.find? (fun c => c.name == p) with
  | none => simp [RA, lookupPath, hf]
  | some c => simp [RA, lookupPath, hf]

theorem RA_setArrayFlag (f : Bool) (c : NodeDesc) (path : List String) (a : String) :
    RA (setArrayFlag f c) path a ↔ RA c path a := by
  cases path with
  | nil => simp [RA_nil, setArrayFlag]
  | cons p rest => simp [RA_cons, setArrayFlag]

theorem RA_markArray (cs : List NodeDesc) (nm : String) (f : Bool) (p : String)
    (rest : List String) (a : String) :
    (∃ c, (markArray cs nm f).find? (fun c => c.name == p) = some c ∧ RA c rest a) ↔
    (∃ c, cs.find? (fun c => c.name == p) = some c ∧ RA c rest a) := by
  induction cs with
  | nil => rw [markArray]
  | cons c r ih =>
    rw [markArray]
    by_cases hc : c.name = nm
    · simp only [if_pos hc]
      by_cases hp : c.name = p
      · rw [List.find?_cons_of_pos _ (by simp [setArrayFlag, hp]),
          List.find?_cons_of_pos _ (by simp [hp])]
        simp [RA_setArrayFlag]
      · rw [List.find?_cons_of_neg _ (by simp [setArrayFlag, hp]),
          List.find?_cons_of_neg _ (by simp [hp])]
    · simp only [if_neg hc]
      by_cases hp : c.name = p
      · rw [List.find?_cons_of_pos _ (by simp [hp]), List.find?_cons_of_pos _ (by simp [hp])]
      · rw [List.find?_cons_of_neg _ (by simp [hp]), List.find?_cons_of_neg _ (by simp [hp])]
        exact ih

theorem RA_markArray_node (n : String) (i h : Bool) (ats : List String)
    (cs : List NodeDesc) (nm : String) (f : Bool) (path : List String) (a : String) :
    RA (.mk n i h ats (markArray cs nm f)) path a ↔ RA (.mk n i h ats cs) path a := by
  cases path with
  | nil => simp [RA_nil]
  | cons p rest =>
    rw [RA_cons, RA_cons]
    simp only [NodeDesc.children_mk]
    exact RA_markArray cs nm f p rest a

theorem updateNode_name (d : XMLNode) (c : NodeDesc) : (updateNode d c).name = c.name := by
  cases d with
  | mk nm ats ct kids =>
    rw [updateNode]
    obtain ⟨cs2, hshape⟩ := parseKids_shape kids kids (NodeDesc.mk c.name c.isArray
      (c.hasCharacterData || contentFlag ct) (recordAttrs c.attributes ats) c.children)
    rw [hshape]
    simp

theorem find?_parseList_ne (d : XMLNode) (cs : List NodeDesc) (p : String)
    (hp : p ≠ d.name) :
    (parseList d cs).find? (fun c => c.name == p) = cs.find? (fun c => c.name == p) := by
  induction cs with
  | nil =>
    rw [parseList]
    have hn : (updateNode d (freshNode d.name)).name = d.name := by
      simp [updateNode_name, freshNode]
    rw [List.find?_cons_of_neg _ (by simp [hn]; exact fun h => hp h.symm)]
  | cons c r ih =>
    rw [parseList]
    by_cases hc : c.name = d.name
    · simp only [if_pos hc]
      have hn : (updateNode d c).name = c.name := updateNode_name d c
      have hcnp : ¬ c.name = p := fun h => hp ((h ▸ hc : p = d.name))
      rw [List.find?_cons_of_neg _ (by simp [hn]; exact hcnp),
        List.find?_cons_of_neg _ (by simp; exact hcnp)]
    · simp only [if_neg hc]
      by_cases hcp : c.name = p
      · rw [List.find?_cons_of_pos _ (by simp [hcp]), List.find?_cons_of_pos _ (by simp [hcp])]
      · rw [List.find?_cons_of_neg _ (by simp [hcp]), List.find?_cons_of_neg _ (by simp [hcp])]
        exact ih

theorem find?_parseList_eq (d : XMLNode) (cs : List NodeDesc) :
    (parseList d cs).find? (fun c => c.name == d.name) =
      some (updateNode d (((cs.find? (fun c => c.name == d.name)).getD
        (freshNode d.name)))) := by
  induction cs with
  | nil =>
    rw [parseList]
    have hn : (updateNode d (freshNode d.name)).name = d.name := by
      simp [updateNode_name, freshNode]
    rw [List.find?_cons_of_pos _ (by simp [hn])]
    simp
  | cons c r ih =>
    rw [parseList]
    by_cases hc : c.name = d.name
    · simp only [if_pos hc]
      have hn : (updateNode d c).name = c.name := updateNode_name d c
      rw [List.find?_cons_of_pos _ (by simp [hn, hc]),
        List.find?_cons_of_pos _ (by simp [hc])]
      simp
    · simp only [if_neg hc]
      rw [List.find?_cons_of_neg _ (by simp [hc]), List.find?_cons_of_neg _ (by simp [hc])]
      exact ih

theorem RA_fresh (nm : String) (path : List String) (a : String) :
    ¬ RA (freshNode nm) path a := by
  cases path with
  | nil => simp [RA_nil, freshNode]
  | cons p rest => simp [RA_cons, freshNode]

theorem parse_RA_aux : ∀ N, ∀ d : XMLNode, sizeOf d ≤ N →
    (∀ c path a, RA (updateNode d c) path a ↔ RA c path a ∨ Supplies d path a) ∧
    (∀ t path a, RA (parseNode d t) path a ↔ RA t path a ∨ SuppliesDoc d path a) := by
  intro N
  induction N using Nat.strong_induction_on with
  | _ N ih =>
    intro d hd
    have hK : ∀ (all subs : List XMLNode), (∀ s ∈ subs, sizeOf s < sizeOf d) →
        ∀ (c : NodeDesc) (p : String) (rest : List String) (a : String),
        RA (parseKids all subs c) (p :: rest) a ↔
          RA c (p :: rest) a ∨ ∃ s ∈ subs, s.name = p ∧ Supplies s rest a := by
      intro all subs
      induction subs with
      | nil =>
        intro _ c p rest a
        rw [parseKids]
        simp
      | cons s rest' ihs =>
        intro hsub c p rest a
        rw [parseKids]
        have hs : sizeOf s < sizeOf d := hsub s (by simp)
        have hL := (ih (sizeOf s) (by omega) s (le_refl _)).2
        rw [ihs (fun t ht => hsub t (by simp [ht]))]
        rw [RA_markArray_node]
        have h2 : RA (NodeDesc.mk (parseNode s c).name (parseNode s c).isArray
            (parseNode s c).hasCharacterData (parseNode s c).attributes
            (parseNode s c).children) (p :: rest) a ↔ RA (parseNode s c) (p :: rest) a := by
          rw [← NodeDesc.ext_mk (parseNode s c)]
        rw [h2, hL c (p :: rest) a]
        rw [SuppliesDoc]
        simp only [List.exists_mem_cons_iff]
        tauto
    have hU : ∀ c path a, RA (updateNode d c) path a ↔ RA c path a ∨ Supplies d path a := by
      intro c path a
      cases d with
      | mk nm ats ct kids =>
        rw [updateNode]
        have hbound : ∀ s ∈ kids, sizeOf s < sizeOf (XMLNode.mk nm ats ct kids) := by
          intro s hs
          have h2 := List.sizeOf_lt_of_mem hs
          have h3 : sizeOf kids < sizeOf (XMLNode.mk nm ats ct kids) := by simp
          omega
        cases path with
        | nil =>
          obtain ⟨cs2, hshape⟩ := parseKids_shape kids kids (NodeDesc.mk c.name c.isArray
            (c.hasCharacterData || contentFlag ct) (recordAttrs c.attributes ats) c.children)
          rw [hshape]
          rw [RA_nil, RA_nil]
          simp only [NodeDesc.attributes_mk]
          rw [mem_recordAttrs_iff]
          rw [Supplies]
          simp
        | cons p rest =>
          rw [hK kids kids hbound _ p rest a]
          have h1 : RA (NodeDesc.mk c.name c.isArray (c.hasCharacterData || contentFlag ct)
              (recordAttrs c.attributes ats) c.children) (p :: rest) a ↔
              RA c (p :: rest) a := by
            rw [RA_cons, RA_cons]
            simp only [NodeDesc.children_mk]
          rw [h1, Supplies]
          simp
    refine ⟨hU, ?_⟩
    intro t path a
    rw [parseNode_eq]
    cases path with
    | nil =>
      rw [RA_nil, RA_nil, SuppliesDoc]
      simp
    | cons p rest =>
      rw [RA_cons, RA_cons]
      simp only [NodeDesc.children_mk]
      by_cases hp : p = d.name
      · rw [hp]
        rw [find?_parseList_eq]
        cases hf : t.children.find? (fun c => c.name == d.name) with
        | none =>
          simp only [hf, Option.getD_none]
          rw [SuppliesDoc]
          constructor
          · rintro ⟨c', hc', hRA⟩
            have he : c' = updateNode d (freshNode d.name) := by
              injection hc' with h
              exact h.symm
            subst he
            rcases (hU _ rest a).mp hRA with h | h
            · exact absurd h (RA_fresh d.name rest a)
            · exact Or.inr ⟨rfl, h⟩
          · rintro (⟨c', hc', _⟩ | ⟨_, hsup⟩)
            · exact Option.noConfusion hc'
            · refine ⟨updateNode d (freshNode d.name), rfl, ?_⟩
              exact (hU _ rest a).mpr (Or.inr hsup)
        | some c0 =>
          simp only [hf, Option.getD_some]
          rw [SuppliesDoc]
          constructor
          · rintro ⟨c', hc', hRA⟩
            have he : c' = updateNode d c0 := by
              injection hc' with h
              exact h.symm
            subst he
            rcases (hU _ rest a).mp hRA with h | h
            · exact Or.inl ⟨c0, rfl, h⟩
            · exact Or.inr ⟨rfl, h⟩
          · rintro (⟨c', hc', hRA⟩ | ⟨_, hsup⟩)
            · have he : c0 = c' := by
                injection hc' with h
              subst he
              exact ⟨updateNode d c0, rfl, (hU _ rest a).mpr (Or.inl hRA)⟩
            · exact ⟨updateNode d c0, rfl, (hU _ rest a).mpr (Or.inr hsup)⟩
      · rw [find?_parseList_ne d t.children p hp]
        rw [SuppliesDoc]
        have : ¬ d.name = p := fun h => hp h.symm
        simp [this]

/-- Folding a document list into any tree records exactly the attributes that
were already there or are supplied with a nonempty value by some document. -/
theorem ingestAll_RA (ds : List XMLNode) (t : NodeDesc) (path : List String) (a : String) :
    RA (ingestAll t ds) path a ↔ RA t path a ∨ ∃ d ∈ ds, SuppliesDoc d path a := by
  induction ds generalizing t with
  | nil => simp [ingestAll]
  | cons d r ih =>
    have h1 : ingestAll t (d :: r) = ingestAll (ingest t d) r := by
      simp [ingestAll, ingest]
    rw [h1, ih]
    rw [show ingest t d = parseNode d t from rfl]
    rw [(parse_RA_aux (sizeOf d) d (le_refl _)).2 t path a]
    simp only [List.exists_mem_cons_iff]
    tauto

theorem RA_emptyRoot (path : List String) (a : String) : ¬ RA emptyRoot path a := by
  cases path with
  | nil => simp [RA_nil, emptyRoot]
  | cons p rest => simp [RA_cons, emptyRoot]

/-- C10: after ingesting any document sequence into a fresh converter, an
attribute name is recorded at an element (addressed by its path of element
names from the synthetic root) iff at least one ingested document contains
an instance of that element supplying that attribute with a nonempty
value; attributes seen only with empty values are never recorded. -/
theorem attribute_recorded_iff_supplied (ds : List XMLNode) (path : List String) (a : String) :
    RA (ingestAll emptyRoot ds) path a ↔ ∃ d ∈ ds, SuppliesDoc d path a := by
  rw [ingestAll_RA]
  simp [RA_emptyRoot]

def namesOf (cs : List NodeDesc) : List String := cs.map NodeDesc.name

theorem copyChildren_id_of (ks : List NodeDesc) (h : ∀ c ∈ ks, copyNode c = c) :
    copyChildren ks = ks := by
  induction ks with
  | nil => rw [copyChildren]
  | cons c r ihr =>
    rw [copyChildren]
    rw [h c (List.mem_cons_self c r), ihr (fun x hx => h x (List.mem_cons_of_mem _ hx))]

theorem copyNode_id : ∀ n : NodeDesc, copyNode n = n := by
  suffices h : ∀ N n, sizeOf n ≤ N → copyNode n = n from fun n => h (sizeOf n) n (le_refl _)
  intro N
  induction N using Nat.strong_induction_on with
  | _ N ih =>
    intro n hn
    cases n with
    | mk nm i h ats kids =>
      rw [copyNode]
      rw [copyChildren_id_of kids ?_]
      intro c hc
      refine ih (sizeOf c) ?_ c (le_refl _)
      have h1 := List.sizeOf_lt_of_mem hc
      have h2 : sizeOf kids < sizeOf (NodeDesc.mk nm i h ats kids) := by simp
      omega

theorem combineNodesT_eq (a b : NodeDesc) :
    combineNodesT a b = .mk a.name (a.isArray || b.isArray)
      (a.hasCharacterData || b.hasCharacterData)
      (b.attributes.foldl addAttr a.attributes)
      (combineChildrenT a.children b.children) := by
  cases b with
  | mk nm i h ats kids =>
    rw [combineNodesT]
    simp

theorem combineNodesT_name (a b : NodeDesc) : (combineNodesT a b).name = a.name := by
  rw [combineNodesT_eq]
  simp

theorem combineChildrenT_nil (as' : List NodeDesc) : combineChildrenT as' [] = as' := by
  rw [combineChildrenT]

theorem combineChildrenT_cons (as' : List NodeDesc) (cb : NodeDesc) (rest : List NodeDesc) :
    combineChildrenT as' (cb :: rest) = combineChildrenT (insertChildT as' cb) rest := by
  rw [combineChildrenT]

/-- On equal names the source combineNodes never panics and agrees with its
total twin. -/
theorem combine_eq_total : ∀ N,
    (∀ b : NodeDesc, sizeOf b ≤ N → ∀ a, a.name = b.name →
      combineNodes a b = some (combineNodesT a b)) ∧
    (∀ cb : NodeDesc, sizeOf cb ≤ N → ∀ as',
      insertChild as' cb = some (insertChildT as' cb)) ∧
    (∀ bs : List NodeDesc, sizeOf bs ≤ N → ∀ as',
      combineChildren as' bs = some (combineChildrenT as' bs)) := by
  intro N
  induction N using Nat.strong_induction_on with
  | _ N ih =>
    have hnode : ∀ b : NodeDesc, sizeOf b ≤ N → ∀ a, a.name = b.name →
        combineNodes a b = some (combineNodesT a b) := by
      intro b hb a hname
      cases b with
      | mk nm i h ats kids =>
        rw [combineNodes, combineNodesT]
        simp only [NodeDesc.name_mk] at hname
        have hsz : sizeOf kids < sizeOf (NodeDesc.mk nm i h ats kids) := by simp
        have hcc := (ih (sizeOf kids) (by omega)).2.2 kids (le_refl _) a.children
        rw [if_pos hname, hcc]
    have hins : ∀ cb : NodeDesc, sizeOf cb ≤ N → ∀ as',
        insertChild as' cb = some (insertChildT as' cb) := by
      intro cb hcb as'
      induction as' with
      | nil =>
        rw [insertChild, insertChildT]
      | cons a rest ihr =>
        rw [insertChild, insertChildT]
        by_cases hn : a.name = cb.name
        · rw [if_pos hn, if_pos hn, hnode cb hcb a hn]
        · rw [if_neg hn, if_neg hn, ihr]
    refine ⟨hnode, hins, ?_⟩
    intro bs hbs as'
    induction bs generalizing as' with
    | nil => rw [combineChildren, combineChildrenT]
    | cons cb rest ihr =>
      rw [combineChildren, combineChildrenT]
      have h1 : sizeOf cb ≤ N := by
        have : sizeOf cb < sizeOf (cb :: rest) := by
          simp only [List.cons.sizeOf_spec]
          omega
        omega
      have h2 : sizeOf rest ≤ N := by
        have : sizeOf rest < sizeOf (cb :: rest) := by
          simp only [List.cons.sizeOf_spec]
          omega
        omega
      rw [hins cb h1 as']
      exact ihr h2 (insertChildT as' cb)

theorem combineNodes_eq_total (a b : NodeDesc) (h : a.name = b.name) :
    combineNodes a b = some (combineNodesT a b) :=
  (combine_eq_total (sizeOf b)).1 b (le_refl _) a h

theorem addAttr_foldl_nil (attrs : List String) : ([] : List String).foldl addAttr attrs = attrs :=
  rfl

/-- Merging a fresh node (of any name) into a is the identity. -/
theorem combineT_fresh (a : NodeDesc) (nm : String) :
    combineNodesT a (freshNode nm) = a := by
  rw [combineNodesT_eq]
  simp only [freshNode, NodeDesc.isArray_mk, NodeDesc.hasCharacterData_mk,
    NodeDesc.attributes_mk, NodeDesc.children_mk, Bool.or_false]
  rw [combineChildrenT_nil, List.foldl_nil]
  exact (NodeDesc.ext_mk a).symm

/-- Recursively duplicate-free child names: the tree invariant every ingested
tree satisfies. -/
def WFNames (n : NodeDesc) : Prop :=
  (namesOf n.children).Nodup ∧ ∀ c ∈ n.children, WFNames c
termination_by sizeOf n
decreasing_by
  have h1 := List.sizeOf_lt_of_mem (show c ∈ n.children by assumption)
  have h2 := NodeDesc.sizeOf_children_lt n
  omega

theorem WFNames_elim {n : NodeDesc} (h : WFNames n) :
    (namesOf n.children).Nodup ∧ ∀ c ∈ n.children, WFNames c := by
  rw [WFNames] at h
  exact h

theorem WFNames_intro (n : NodeDesc) (h1 : (namesOf n.children).Nodup)
    (h2 : ∀ c ∈ n.children, WFNames c) : WFNames n := by
  rw [WFNames]
  exact ⟨h1, h2⟩

theorem WFNames_fresh (nm : String) : WFNames (freshNode nm) := by
  rw [WFNames]
  simp [freshNode, namesOf]

theorem WFNames_emptyRoot : WFNames emptyRoot := by
  rw [WFNames]
  simp [emptyRoot, namesOf]

/-- getOrAddChild-style surgery: transform the first entry of the given name,
append a transformed fresh node when the name is absent. parseList and (on
lists containing the name) markArray are instances. -/
def upsertG (nm : String) (g : NodeDesc → NodeDesc) : List NodeDesc → List NodeDesc
  | [] => [g (freshNode nm)]
  | c :: r => if c.name = nm then g c :: r else c :: upsertG nm g r

theorem parseList_eq_upsertG (d : XMLNode) (cs : List NodeDesc) :
    parseList d cs = upsertG d.name (updateNode d) cs := by
  induction cs with
  | nil => rw [parseList, upsertG]
  | cons c r ih =>
    rw [parseList, upsertG]
    by_cases h : c.name = d.name
    · rw [if_pos h, if_pos h]
    · rw [if_neg h, if_neg h, ih]

theorem markArray_eq_upsertG (cs : List NodeDesc) (nm : String) (f : Bool)
    (h : nm ∈ namesOf cs) : markArray cs nm f = upsertG nm (setArrayFlag f) cs := by
  induction cs with
  | nil => simp [namesOf] at h
  | cons c r ih =>
    rw [markArray, upsertG]
    by_cases hc : c.name = nm
    · rw [if_pos hc, if_pos hc]
    · rw [if_neg hc, if_neg hc, ih]
      simp only [namesOf, List.map_cons, List.mem_cons] at h
      rcases h with h | h
      · exact absurd h.symm hc
      · exact h

theorem mem_namesOf_insertChildT (as' : List NodeDesc) (cb : NodeDesc) (x : String)
    (hx : x ∈ namesOf as') : x ∈ namesOf (insertChildT as' cb) := by
  induction as' with
  | nil => simp [namesOf] at hx
  | cons a rest ih =>
    rw [insertChildT]
    simp only [namesOf, List.map_cons, List.mem_cons] at hx
    by_cases h : a.name = cb.name
    · rw [if_pos h]
      simp only [namesOf, List.map_cons, List.mem_cons, combineNodesT_name]
      rcases hx with hx | hx
      · exact Or.inl hx
      · exact Or.inr hx
    · rw [if_neg h]
      simp only [namesOf, List.map_cons, List.mem_cons]
      rcases hx with hx | hx
      · exact Or.inl hx
      · exact Or.inr (ih hx)

theorem name_mem_insertChildT (as' : List NodeDesc) (cb : NodeDesc) :
    cb.name ∈ namesOf (insertChildT as' cb) := by
  induction as' with
  | nil =>
    rw [insertChildT]
    simp [namesOf]
  | cons a rest ih =>
    rw [insertChildT]
    by_cases h : a.name = cb.name
    · rw [if_pos h]
      simp [namesOf, combineNodesT_name, h]
    · rw [if_neg h]
      simp only [namesOf, List.map_cons, List.mem_cons]
      exact Or.inr ih

section UpsertComm

variable {nm : String} {g : NodeDesc → NodeDesc}

theorem insertT_seed (Hname : ∀ c, (g c).name = c.name)
    (Hg : ∀ a b, b.name = nm → WFNames b → combineNodesT a (g b) = g (combineNodesT a b))
    (as' : List NodeDesc) :
    insertChildT as' (g (freshNode nm)) = upsertG nm g as' := by
  induction as' with
  | nil => rw [insertChildT, upsertG]
  | cons a rest ih =>
    rw [insertChildT, upsertG]
    have hgn : (g (freshNode nm)).name = nm := by
      rw [Hname]
      simp [freshNode]
    by_cases h : a.name = nm
    · rw [if_pos (show a.name = (g (freshNode nm)).name by rw [hgn]; exact h), if_pos h]
      rw [Hg a (freshNode nm) (by simp [freshNode]) (WFNames_fresh nm), combineT_fresh]
    · rw [if_neg (show ¬ a.name = (g (freshNode nm)).name by rw [hgn]; exact h), if_neg h, ih]

theorem insertT_upd (Hname : ∀ c, (g c).name = c.name)
    (Hg : ∀ a b, b.name = nm → WFNames b → combineNodesT a (g b) = g (combineNodesT a b))
    (as' : List NodeDesc) (b : NodeDesc) (hb : b.name = nm) (hw : WFNames b) :
    insertChildT as' (g b) = upsertG nm g (insertChildT as' b) := by
  induction as' with
  | nil =>
    rw [insertChildT, insertChildT, upsertG]
    rw [if_pos hb]
  | cons a rest ih =>
    rw [insertChildT]
    by_cases h : a.name = b.name
    · rw [if_pos (by rw [Hname]; exact h)]
      rw [insertChildT, if_pos h, upsertG, if_pos (by rw [combineNodesT_name, h, hb])]
      rw [Hg a b hb hw]
    · rw [if_neg (by rw [Hname]; exact h)]
      rw [insertChildT, if_neg h, upsertG, if_neg (by rw [hb] at h; exact h)]
      rw [ih]

theorem insertT_comm (Hname : ∀ c, (g c).name = c.name)
    (as' : List NodeDesc) (b : NodeDesc) (hb : b.name ≠ nm) (hmem : nm ∈ namesOf as') :
    insertChildT (upsertG nm g as') b = upsertG nm g (insertChildT as' b) := by
  induction as' with
  | nil => simp [namesOf] at hmem
  | cons a rest ih =>
    rw [upsertG]
    by_cases ha : a.name = nm
    · rw [if_pos ha]
      have hne : ¬ (g a).name = b.name := by
        rw [Hname, ha]
        exact fun h2 => hb h2.symm
      have hne2 : ¬ a.name = b.name := by
        rw [ha]
        exact fun h2 => hb h2.symm
      rw [insertChildT, if_neg hne, insertChildT, if_neg hne2, upsertG, if_pos ha]
    · rw [if_neg ha]
      have hmem2 : nm ∈ namesOf rest := by
        simp only [namesOf, List.map_cons, List.mem_cons] at hmem
        rcases hmem with h | h
        · exact absurd h.symm ha
        · exact h
      by_cases hab : a.name = b.name
      · rw [insertChildT, if_pos hab, insertChildT, if_pos hab, upsertG,
          if_neg (by rw [combineNodesT_name]; exact ha)]
      · rw [insertChildT, if_neg hab, insertChildT, if_neg hab, upsertG, if_neg ha,
          ih hmem2]

theorem ccT_upsert_left (Hname : ∀ c, (g c).name = c.name) :
    ∀ (bs as' : List NodeDesc), nm ∈ namesOf as' → nm ∉ namesOf bs →
    combineChildrenT (upsertG nm g as') bs = upsertG nm g (combineChildrenT as' bs) := by
  intro bs
  induction bs with
  | nil =>
    intro as' _ _
    rw [combineChildrenT_nil, combineChildrenT_nil]
  | cons b rest ih =>
    intro as' hmem hnb
    have hbname : b.name ≠ nm := by
      simp only [namesOf, List.map_cons, List.mem_cons] at hnb
      exact fun h => hnb (Or.inl h.symm)
    have hnrest : nm ∉ namesOf rest := by
      simp only [namesOf, List.map_cons, List.mem_cons] at hnb
      exact fun h => hnb (Or.inr h)
    rw [combineChildrenT_cons, combineChildrenT_cons]
    rw [insertT_comm Hname as' b hbname hmem]
    exact ih (insertChildT as' b) (mem_namesOf_insertChildT as' b nm hmem) hnrest

theorem ccT_upsert (Hname : ∀ c, (g c).name = c.name)
    (Hg : ∀ a b, b.name = nm → WFNames b → combineNodesT a (g b) = g (combineNodesT a b)) :
    ∀ (bs as' : List NodeDesc), (namesOf bs).Nodup → (∀ x ∈ bs, WFNames x) →
    combineChildrenT as' (upsertG nm g bs) = upsertG nm g (combineChildrenT as' bs) := by
  intro bs
  induction bs with
  | nil =>
    intro as' _ _
    rw [upsertG, combineChildrenT_cons, combineChildrenT_nil, combineChildrenT_nil]
    exact insertT_seed Hname Hg as'
  | cons b rest ih =>
    intro as' hnodup hw
    have hnd : b.name ∉ namesOf rest ∧ (namesOf rest).Nodup := by
      simpa [namesOf] using hnodup
    rw [upsertG]
    by_cases hb : b.name = nm
    · rw [if_pos hb]
      rw [combineChildrenT_cons, combineChildrenT_cons]
      rw [insertT_upd Hname Hg as' b hb (hw b (List.mem_cons_self _ _))]
      exact ccT_upsert_left Hname rest (insertChildT as' b)
        (hb ▸ name_mem_insertChildT as' b) (hb ▸ hnd.1)
    · rw [if_neg hb]
      rw [combineChildrenT_cons, combineChildrenT_cons]
      exact ih (insertChildT as' b) hnd.2 (fun x hx => hw x (List.mem_cons_of_mem _ hx))

end UpsertComm

theorem setArrayFlag_name (f : Bool) (c : NodeDesc) : (setArrayFlag f c).name = c.name := by
  simp [setArrayFlag]

theorem combineT_setArrayFlag (f : Bool) (a b : NodeDesc) :
    combineNodesT a (setArrayFlag f b) = setArrayFlag f (combineNodesT a b) := by
  rw [combineNodesT_eq, combineNodesT_eq]
  simp [setArrayFlag, Bool.or_assoc]

/-- The cumulative effect of the child loop of parse on the children list. -/
def kidsFold (all : List XMLNode) : List XMLNode → List NodeDesc → List NodeDesc
  | [], cs => cs
  | s :: rest, cs =>
    kidsFold all rest (markArray (parseList s cs) s.name (decide (countName all s.name > 1)))

theorem parseKids_eq (all subs : List XMLNode) :
    ∀ c : NodeDesc, parseKids all subs c =
      .mk c.name c.isArray c.hasCharacterData c.attributes (kidsFold all subs c.children) := by
  induction subs with
  | nil =>
    intro c
    rw [parseKids, kidsFold]
    exact NodeDesc.ext_mk c
  | cons s rest ih =>
    intro c
    rw [parseKids, kidsFold]
    rw [ih]
    rw [parseNode_eq]
    simp

theorem updateNode_eq (d : XMLNode) (c : NodeDesc) :
    updateNode d c = .mk c.name c.isArray (c.hasCharacterData || contentFlag d.content)
      (recordAttrs c.attributes d.attrs) (kidsFold d.nodes d.nodes c.children) := by
  cases d with
  | mk nm ats ct kids =>
    rw [updateNode, parseKids_eq]
    simp

theorem containsAttribute_true_iff (l : List String) (a : String) :
    containsAttribute l a = true ↔ a ∈ l := by
  simp [containsAttribute, List.contains_iff_exists_mem_beq, beq_iff_eq]

theorem mem_addAttr (acc : List String) (x y : String) (h : y ∈ acc) : y ∈ addAttr acc x := by
  rw [addAttr]
  split
  · exact h
  · exact List.mem_append_left _ h

theorem mem_foldl_addAttr_acc (B : List String) (A : List String) (y : String) (h : y ∈ A) :
    y ∈ B.foldl addAttr A := by
  induction B generalizing A with
  | nil => simpa using h
  | cons b r ih =>
    rw [List.foldl_cons]
    exact ih (addAttr A b) (mem_addAttr A b y h)

theorem mem_foldl_addAttr (B : List String) (A : List String) (y : String) (h : y ∈ B) :
    y ∈ B.foldl addAttr A := by
  induction B generalizing A with
  | nil => simp at h
  | cons b r ih =>
    rw [List.foldl_cons]
    rcases List.mem_cons.mp h with rfl | h2
    · refine mem_foldl_addAttr_acc r (addAttr A y) y ?_
      rw [addAttr]
      split
      · rename_i hc
        exact (containsAttribute_true_iff A y).mp hc
      · exact List.mem_append_right _ (List.mem_singleton.mpr rfl)
    · exact ih (addAttr A b) h2

theorem addAttr_recordAttr_comm (A B : List String) (x : XMLAttr) :
    (recordAttr B x).foldl addAttr A = recordAttr (B.foldl addAttr A) x := by
  rw [recordAttr, recordAttr]
  by_cases hv : x.value = ""
  · rw [if_pos hv, if_pos hv]
  · rw [if_neg hv, if_neg hv]
    by_cases hc : containsAttribute B x.name = true
    · rw [if_pos hc]
      have : containsAttribute (B.foldl addAttr A) x.name = true := by
        rw [containsAttribute_true_iff]
        exact mem_foldl_addAttr B A x.name ((containsAttribute_true_iff B x.name).mp hc)
      rw [if_pos this]
    · rw [if_neg hc]
      rw [List.foldl_append]
      simp only [List.foldl_cons, List.foldl_nil]
      rw [addAttr]

theorem addAttr_recordAttrs_comm (xs : List XMLAttr) (A B : List String) :
    (recordAttrs B xs).foldl addAttr A = recordAttrs (B.foldl addAttr A) xs := by
  induction xs generalizing B with
  | nil => simp [recordAttrs]
  | cons x r ih =>
    have h1 : recordAttrs B (x :: r) = recordAttrs (recordAttr B x) r := by
      simp [recordAttrs]
    have h2 : recordAttrs (B.foldl addAttr A) (x :: r) =
        recordAttrs ((recordAttr B x).foldl addAttr A) r := by
      rw [show recordAttrs (B.foldl addAttr A) (x :: r) =
        recordAttrs (recordAttr (B.foldl addAttr A) x) r from by simp [recordAttrs]]
      rw [addAttr_recordAttr_comm]
    rw [h1, h2]
    exact ih (recordAttr B x)

theorem name_mem_upsertG {nm : String} {g : NodeDesc → NodeDesc}
    (Hname : ∀ c, (g c).name = c.name) (cs : List NodeDesc) :
    nm ∈ namesOf (upsertG nm g cs) := by
  induction cs with
  | nil =>
    rw [upsertG]
    simp [namesOf, Hname, freshNode]
  | cons c r ih =>
    rw [upsertG]
    by_cases h : c.name = nm
    · rw [if_pos h]
      simp [namesOf, Hname, h]
    · rw [if_neg h]
      simp only [namesOf, List.map_cons, List.mem_cons]
      exact Or.inr ih

theorem mem_namesOf_ccT_left (bs as' : List NodeDesc) (x : String)
    (h : x ∈ namesOf as') : x ∈ namesOf (combineChildrenT as' bs) := by
  induction bs generalizing as' with
  | nil => rw [combineChildrenT_nil]; exact h
  | cons b r ih =>
    rw [combineChildrenT_cons]
    exact ih (insertChildT as' b) (mem_namesOf_insertChildT as' b x h)

theorem mem_namesOf_ccT (bs as' : List NodeDesc) (x : String)
    (h : x ∈ namesOf bs) : x ∈ namesOf (combineChildrenT as' bs) := by
  induction bs generalizing as' with
  | nil => simp [namesOf] at h
  | cons b r ih =>
    rw [combineChildrenT_cons]
    simp only [namesOf, List.map_cons, List.mem_cons] at h
    rcases h with rfl | h2
    · exact mem_namesOf_ccT_left r (insertChildT as' b) b.name (name_mem_insertChildT as' b)
    · exact ih (insertChildT as' b) h2

/-- Well-formed child list: duplicate-free names with recursively well-formed
entries. -/
def WFL (cs : List NodeDesc) : Prop := (namesOf cs).Nodup ∧ ∀ x ∈ cs, WFNames x

theorem WFNames_iff_WFL (n : NodeDesc) : WFNames n ↔ WFL n.children := by
  rw [WFNames, WFL]

theorem WFNames_setArrayFlag (f : Bool) (c : NodeDesc) (h : WFNames c) :
    WFNames (setArrayFlag f c) := by
  rw [WFNames] at h ⊢
  simpa [setArrayFlag] using h

theorem namesOf_markArray (cs : List NodeDesc) (nm : String) (f : Bool) :
    namesOf (markArray cs nm f) = namesOf cs := by
  induction cs with
  | nil => rw [markArray]
  | cons c r ih =>
    rw [markArray]
    by_cases hc : c.name = nm
    · rw [if_pos hc]
      simp [namesOf, setArrayFlag_name]
    · rw [if_neg hc]
      simp only [namesOf, List.map_cons]
      have ih2 : List.map NodeDesc.name (markArray r nm f) = List.map NodeDesc.name r := ih
      rw [ih2]

theorem namesOf_upsertG {nm : String} {g : NodeDesc → NodeDesc}
    (Hname : ∀ c, (g c).name = c.name) (cs : List NodeDesc) :
    namesOf (upsertG nm g cs) =
      if nm ∈ namesOf cs then namesOf cs else namesOf cs ++ [nm] := by
  induction cs with
  | nil =>
    rw [upsertG]
    simp [namesOf, Hname, freshNode]
  | cons c r ih =>
    rw [upsertG]
    by_cases hc : c.name = nm
    · rw [if_pos hc]
      have hmem : nm ∈ namesOf (c :: r) := by simp [namesOf, hc]
      rw [if_pos hmem]
      simp [namesOf, Hname]
    · rw [if_neg hc]
      by_cases hr : nm ∈ namesOf r
      · have hmem : nm ∈ namesOf (c :: r) := by
          simp only [namesOf, List.map_cons, List.mem_cons]
          exact Or.inr hr
        rw [if_pos hmem]
        simp only [namesOf, List.map_cons]
        have ih2 : List.map NodeDesc.name (upsertG nm g r) = List.map NodeDesc.name r := by
          have := ih
          rw [if_pos hr] at this
          exact this
        rw [ih2]
      · have hmem : nm ∉ namesOf (c :: r) := by
          simp only [namesOf, List.map_cons, List.mem_cons]
          rintro (h | h)
          · exact hc h.symm
          · exact hr h
        rw [if_neg hmem]
        simp only [namesOf, List.map_cons, List.cons_append]
        have ih2 : List.map NodeDesc.name (upsertG nm g r) =
            List.map NodeDesc.name r ++ [nm] := by
          have := ih
          rw [if_neg hr] at this
          exact this
        rw [ih2]

theorem WFL_markArray (cs : List NodeDesc) (nm : String) (f : Bool) (h : WFL cs) :
    WFL (markArray cs nm f) := by
  refine ⟨by rw [namesOf_markArray]; exact h.1, ?_⟩
  have hwf := h.2
  clear h
  induction cs with
  | nil => rw [markArray]; intro x hx; simp at hx
  | cons c r ih =>
    rw [markArray]
    by_cases hc : c.name = nm
    · rw [if_pos hc]
      intro x hx
      rcases List.mem_cons.mp hx with rfl | hx2
      · exact WFNames_setArrayFlag f c (hwf c (List.mem_cons_self _ _))
      · exact hwf x (List.mem_cons_of_mem _ hx2)
    · rw [if_neg hc]
      intro x hx
      rcases List.mem_cons.mp hx with rfl | hx2
      · exact hwf x (List.mem_cons_self _ _)
      · exact ih (fun y hy => hwf y (List.mem_cons_of_mem _ hy)) x hx2

theorem WFL_upsertG {nm : String} {g : NodeDesc → NodeDesc}
    (Hname : ∀ c, (g c).name = c.name)
    (HgWF : ∀ c, WFNames c → WFNames (g c)) (cs : List NodeDesc) (h : WFL cs) :
    WFL (upsertG nm g cs) := by
  constructor
  · rw [namesOf_upsertG Hname]
    by_cases hm : nm ∈ namesOf cs
    · rw [if_pos hm]
      exact h.1
    · rw [if_neg hm]
      simp [List.nodup_append, h.1, hm]
  · have hwf := h.2
    clear h
    induction cs with
    | nil =>
      rw [upsertG]
      intro x hx
      rcases List.mem_cons.mp hx with rfl | hx2
      · exact HgWF _ (WFNames_fresh nm)
      · simp at hx2
    | cons c r ih =>
      rw [upsertG]
      by_cases hc : c.name = nm
      · rw [if_pos hc]
        intro x hx
        rcases List.mem_cons.mp hx with rfl | hx2
        · exact HgWF c (hwf c (List.mem_cons_self _ _))
        · exact hwf x (List.mem_cons_of_mem _ hx2)
      · rw [if_neg hc]
        intro x hx
        rcases List.mem_cons.mp hx with rfl | hx2
        · exact hwf x (List.mem_cons_self _ _)
        · exact ih (fun y hy => hwf y (List.mem_cons_of_mem _ hy)) x hx2

theorem sizeOf_mem_nodes_lt {s d : XMLNode} (h : s ∈ d.nodes) : sizeOf s < sizeOf d := by
  have h1 := List.sizeOf_lt_of_mem h
  have h2 := XMLNode.sizeOf_nodes_lt d
  omega

theorem name_mem_parseList (s : XMLNode) (cs : List NodeDesc) :
    s.name ∈ namesOf (parseList s cs) := by
  rw [parseList_eq_upsertG]
  exact name_mem_upsertG (updateNode_name s) cs

/-- The child loop of combineNodes commutes with the isArray marking applied to
a name present in the list. -/
theorem ccT_markArray (nm : String) (f : Bool) (as' bs : List NodeDesc)
    (hw : WFL bs) (hm : nm ∈ namesOf bs) :
    combineChildrenT as' (markArray bs nm f) =
      markArray (combineChildrenT as' bs) nm f := by
  rw [markArray_eq_upsertG bs nm f hm,
    markArray_eq_upsertG _ nm f (mem_namesOf_ccT bs as' nm hm)]
  exact ccT_upsert (setArrayFlag_name f) (fun a b _ _ => combineT_setArrayFlag f a b)
    bs as' hw.1 hw.2

/-- Master commutation: folding one document element into b preserves the
well-formed-names invariant and commutes with merging b into any a. -/
theorem combT_update_master : ∀ N, ∀ d : XMLNode, sizeOf d ≤ N →
    (∀ b, WFNames b → WFNames (updateNode d b)) ∧
    (∀ a b, WFNames b →
      combineNodesT a (updateNode d b) = updateNode d (combineNodesT a b)) := by
  intro N
  induction N using Nat.strong_induction_on with
  | _ N ih =>
    intro d hd
    have hWFs : ∀ s : XMLNode, sizeOf s < sizeOf d → ∀ cs, WFL cs → WFL (parseList s cs) := by
      intro s hs cs h
      rw [parseList_eq_upsertG]
      exact WFL_upsertG (updateNode_name s)
        (fun c hc => (ih (sizeOf s) (by omega) s (le_refl _)).1 c hc) cs h
    have hComms : ∀ s : XMLNode, sizeOf s < sizeOf d → ∀ as' bs, WFL bs →
        combineChildrenT as' (parseList s bs) = parseList s (combineChildrenT as' bs) := by
      intro s hs as' bs hw
      rw [parseList_eq_upsertG, parseList_eq_upsertG]
      exact ccT_upsert (updateNode_name s)
        (fun a b _ hb => (ih (sizeOf s) (by omega) s (le_refl _)).2 a b hb) bs as' hw.1 hw.2
    have hkfWF : ∀ subs, (∀ s ∈ subs, sizeOf s < sizeOf d) →
        ∀ all cs, WFL cs → WFL (kidsFold all subs cs) := by
      intro subs
      induction subs with
      | nil =>
        intro _ all cs h
        rw [kidsFold]
        exact h
      | cons s rest ihs =>
        intro hb all cs h
        rw [kidsFold]
        refine ihs (fun t ht => hb t (by simp [ht])) all _ ?_
        exact WFL_markArray _ _ _ (hWFs s (hb s (by simp)) cs h)
    have hkfComm : ∀ subs, (∀ s ∈ subs, sizeOf s < sizeOf d) →
        ∀ all as' bs, WFL bs →
        combineChildrenT as' (kidsFold all subs bs) =
          kidsFold all subs (combineChildrenT as' bs) := by
      intro subs
      induction subs with
      | nil =>
        intro _ all as' bs _
        rw [kidsFold, kidsFold]
      | cons s rest ihs =>
        intro hb all as' bs hw
        rw [kidsFold, kidsFold]
        have hwp : WFL (parseList s bs) := hWFs s (hb s (by simp)) bs hw
        have hwm : WFL (markArray (parseList s bs) s.name
            (decide (countName all s.name > 1))) := WFL_markArray _ _ _ hwp
        rw [ihs (fun t ht => hb t (by simp [ht])) all as' _ hwm]
        rw [ccT_markArray s.name _ as' (parseList s bs) hwp (name_mem_parseList s bs)]
        rw [hComms s (hb s (by simp)) as' bs hw]
    have hbound : ∀ s ∈ d.nodes, sizeOf s < sizeOf d := fun s hs => sizeOf_mem_nodes_lt hs
    constructor
    · intro b hb
      rw [updateNode_eq, WFNames_iff_WFL]
      simp only [NodeDesc.children_mk]
      exact hkfWF d.nodes hbound d.nodes b.children ((WFNames_iff_WFL b).mp hb)
    · intro a b hb
      rw [updateNode_eq d b, updateNode_eq d (combineNodesT a b), combineNodesT_eq,
        combineNodesT_eq]
      simp only [NodeDesc.name_mk, NodeDesc.isArray_mk, NodeDesc.hasCharacterData_mk,
        NodeDesc.attributes_mk, NodeDesc.children_mk]
      rw [Bool.or_assoc]
      rw [addAttr_recordAttrs_comm]
      rw [hkfComm d.nodes hbound d.nodes a.children b.children ((WFNames_iff_WFL b).mp hb)]

theorem WFNames_updateNode (d : XMLNode) (b : NodeDesc) (h : WFNames b) :
    WFNames (updateNode d b) :=
  (combT_update_master (sizeOf d) d (le_refl _)).1 b h

theorem combT_updateNode (d : XMLNode) (a b : NodeDesc) (h : WFNames b) :
    combineNodesT a (updateNode d b) = updateNode d (combineNodesT a b) :=
  (combT_update_master (sizeOf d) d (le_refl _)).2 a b h

theorem WFL_parseList (d : XMLNode) (cs : List NodeDesc) (h : WFL cs) :
    WFL (parseList d cs) := by
  rw [parseList_eq_upsertG]
  exact WFL_upsertG (updateNode_name d) (fun c hc => WFNames_updateNode d c hc) cs h

theorem ccT_parseList (d : XMLNode) (as' bs : List NodeDesc) (h : WFL bs) :
    combineChildrenT as' (parseList d bs) = parseList d (combineChildrenT as' bs) := by
  rw [parseList_eq_upsertG, parseList_eq_upsertG]
  exact ccT_upsert (updateNode_name d) (fun a b _ hb => combT_updateNode d a b hb)
    bs as' h.1 h.2

theorem WFNames_parseNode (d : XMLNode) (t : NodeDesc) (h : WFNames t) :
    WFNames (parseNode d t) := by
  rw [parseNode_eq, WFNames_iff_WFL]
  simp only [NodeDesc.children_mk]
  exact WFL_parseList d t.children ((WFNames_iff_WFL t).mp h)

theorem combT_parseNode (d : XMLNode) (A B : NodeDesc) (h : WFNames B) :
    combineNodesT A (parseNode d B) = parseNode d (combineNodesT A B) := by
  rw [parseNode_eq, parseNode_eq, combineNodesT_eq, combineNodesT_eq]
  simp only [NodeDesc.name_mk, NodeDesc.isArray_mk, NodeDesc.hasCharacterData_mk,
    NodeDesc.attributes_mk, NodeDesc.children_mk]
  rw [ccT_parseList d A.children B.children ((WFNames_iff_WFL B).mp h)]

theorem parseNode_name (d : XMLNode) (t : NodeDesc) : (parseNode d t).name = t.name := by
  rw [parseNode_eq]
  simp

theorem combT_ingestAll (ds : List XMLNode) (A B : NodeDesc) (h : WFNames B) :
    combineNodesT A (ingestAll B ds) = ingestAll (combineNodesT A B) ds := by
  induction ds generalizing B with
  | nil => rfl
  | cons d r ihd =>
    have h1 : ingestAll B (d :: r) = ingestAll (parseNode d B) r := by
      simp [ingestAll, ingest]
    have h2 : ingestAll (combineNodesT A B) (d :: r) =
        ingestAll (parseNode d (combineNodesT A B)) r := by
      simp [ingestAll, ingest]
    rw [h1, h2, ihd (parseNode d B) (WFNames_parseNode d B h), combT_parseNode d A B h]

theorem WFNames_ingestAll (ds : List XMLNode) (t : NodeDesc) (h : WFNames t) :
    WFNames (ingestAll t ds) := by
  induction ds generalizing t with
  | nil => exact h
  | cons d r ihd =>
    have h1 : ingestAll t (d :: r) = ingestAll (parseNode d t) r := by
      simp [ingestAll, ingest]
    rw [h1]
    exact ihd (parseNode d t) (WFNames_parseNode d t h)

theorem ingestAll_name (ds : List XMLNode) (t : NodeDesc) :
    (ingestAll t ds).name = t.name := by
  induction ds generalizing t with
  | nil => rfl
  | cons d r ihd =>
    have h1 : ingestAll t (d :: r) = ingestAll (parseNode d t) r := by
      simp [ingestAll, ingest]
    rw [h1, ihd, parseNode_name]

theorem emptyRoot_eq_fresh : emptyRoot = freshNode "" := rfl

theorem combT_emptyRoot (A : NodeDesc) : combineNodesT A emptyRoot = A := by
  rw [emptyRoot_eq_fresh]
  exact combineT_fresh A ""

theorem sameStructure_refl : ∀ n : NodeDesc, sameStructure n n = true := by
  suffices h : ∀ N n, sizeOf n ≤ N → sameStructure n n = true from
    fun n => h (sizeOf n) n (le_refl _)
  intro N
  induction N using Nat.strong_induction_on with
  | _ N ih =>
    intro n hn
    rw [sameStructure_spec]
    refine ⟨rfl, rfl, rfl, ?_⟩
    have hall : ∀ cs : List NodeDesc, (∀ c ∈ cs, sameStructure c c = true) →
        List.Forall₂ (fun a b => sameStructure a b = true) cs cs := by
      intro cs h
      induction cs with
      | nil => exact List.Forall₂.nil
      | cons c r ihr =>
        exact List.Forall₂.cons (h c (by simp)) (ihr (fun x hx => h x (by simp [hx])))
    refine hall n.children ?_
    intro c hc
    refine ih (sizeOf c) ?_ c (le_refl _)
    have h1 := List.sizeOf_lt_of_mem hc
    have h2 := NodeDesc.sizeOf_children_lt n
    omega

theorem ingestAll_append (ds1 ds2 : List XMLNode) (t : NodeDesc) :
    ingestAll t (ds1 ++ ds2) = ingestAll (ingestAll t ds1) ds2 := by
  simp [ingestAll, List.foldl_append]

/-- C1: building one converter per document sequence and merging them with
Combine yields exactly the tree obtained by ingesting the concatenated
sequence into a single converter; in particular the two trees are
sameStructure-equal at every corresponding node and the generated output
(always canonical sorted emission in the source) is byte-identical. -/
theorem merge_equals_single_ingestion (ds1 ds2 : List XMLNode) (pn : String) :
    ∃ m, Combine (ingestAll emptyRoot ds1) (ingestAll emptyRoot ds2) = some m ∧
      m = ingestAll emptyRoot (ds1 ++ ds2) ∧
      sameStructure m (ingestAll emptyRoot (ds1 ++ ds2)) = true ∧
      generateGoCode pn m = generateGoCode pn (ingestAll emptyRoot (ds1 ++ ds2)) := by
  have hname : (ingestAll emptyRoot ds1).name = (ingestAll emptyRoot ds2).name := by
    rw [ingestAll_name, ingestAll_name]
  have h1 : Combine (ingestAll emptyRoot ds1) (ingestAll emptyRoot ds2) =
      combineNodes (ingestAll emptyRoot ds1) (ingestAll emptyRoot ds2) := by
    rw [Combine, copyNode_id, copyNode_id]
  have h2 : combineNodes (ingestAll emptyRoot ds1) (ingestAll emptyRoot ds2) =
      some (combineNodesT (ingestAll emptyRoot ds1) (ingestAll emptyRoot ds2)) :=
    combineNodes_eq_total _ _ hname
  have h3 : combineNodesT (ingestAll emptyRoot ds1) (ingestAll emptyRoot ds2) =
      ingestAll emptyRoot (ds1 ++ ds2) := by
    rw [combT_ingestAll ds2 _ emptyRoot WFNames_emptyRoot, combT_emptyRoot,
      ingestAll_append]
  refine ⟨ingestAll emptyRoot (ds1 ++ ds2), ?_, rfl, sameStructure_refl _, rfl⟩
  rw [h1, h2, h3]

theorem charsLt_irrefl : ∀ l : List Char, charsLt l l = false := by
  intro l
  induction l with
  | nil => rw [charsLt]
  | cons c r ih =>
    rw [charsLt]
    rw [if_neg (lt_irrefl c), if_neg (lt_irrefl c)]
    exact ih

theorem charsLt_trans : ∀ a b c : List Char,
    charsLt a b = true → charsLt b c = true → charsLt a c = true := by
  intro a
  induction a with
  | nil =>
    intro b c hab hbc
    cases b with
    | nil => rw [charsLt] at hab; cases hab
    | cons y ys =>
      cases c with
      | nil => rw [charsLt] at hbc; cases hbc
      | cons z zs => rw [charsLt]
  | cons x xs ih =>
    intro b c hab hbc
    cases b with
    | nil => rw [charsLt] at hab; cases hab
    | cons y ys =>
      cases c with
      | nil => rw [charsLt] at hbc; cases hbc
      | cons z zs =>
        rw [charsLt] at hab hbc ⊢
        by_cases hxy : x < y
        · rw [if_pos hxy] at hab
          by_cases hyz : y < z
          · rw [if_pos (lt_trans hxy hyz)]
          · rw [if_neg hyz] at hbc
            by_cases hzy : z < y
            · rw [if_pos hzy] at hbc; cases hbc
            · have : y = z := le_antisymm (not_lt.mp hzy) (not_lt.mp hyz)
              rw [if_pos (this ▸ hxy)]
        · rw [if_neg hxy] at hab
          by_cases hyx : y < x
          · rw [if_pos hyx] at hab; cases hab
          · rw [if_neg hyx] at hab
            have hxyeq : x = y := le_antisymm (not_lt.mp hyx) (not_lt.mp hxy)
            by_cases hyz : y < z
            · rw [if_pos (hxyeq ▸ hyz)]
            · rw [if_neg hyz] at hbc
              by_cases hzy : z < y
              · rw [if_pos hzy] at hbc; cases hbc
              · rw [if_neg hzy] at hbc
                have hyzeq : y = z := le_antisymm (not_lt.mp hzy) (not_lt.mp hyz)
                have hxz : ¬ x < z := by rw [hxyeq, hyzeq]; exact lt_irrefl z
                have hzx : ¬ z < x := by rw [hxyeq, hyzeq]; exact lt_irrefl z
                rw [if_neg hxz, if_neg hzx]
                exact ih ys zs hab hbc

theorem charsLt_connex : ∀ a b : List Char,
    charsLt a b = false → charsLt b a = false → a = b := by
  intro a
  induction a with
  | nil =>
    intro b hab _
    cases b with
    | nil => rfl
    | cons y ys => rw [charsLt] at hab; cases hab
  | cons x xs ih =>
    intro b hab hba
    cases b with
    | nil => rw [charsLt] at hba; cases hba
    | cons y ys =>
      rw [charsLt] at hab hba
      by_cases hxy : x < y
      · rw [if_pos hxy] at hab; cases hab
      · by_cases hyx : y < x
        · rw [if_pos hyx] at hba; cases hba
        · have hxyeq : x = y := le_antisymm (not_lt.mp hyx) (not_lt.mp hxy)
          rw [if_neg hxy] at hab
          rw [if_neg hyx] at hab
          rw [if_neg hyx] at hba
          rw [if_neg hxy] at hba
          rw [hxyeq, ih ys hab hba]

theorem string_toList_inj {a b : String} (h : a.toList = b.toList) : a = b := by
  cases a with
  | mk da =>
    cases b with
    | mk db =>
      simp only [String.toList] at h
      rw [h]

theorem bool_eq_false_of_ne_true {b : Bool} (h : ¬ b = true) : b = false := by
  cases b
  · rfl
  · exact absurd rfl h

theorem strLe_total (a b : String) : strLe a b = true ∨ strLe b a = true := by
  rw [strLe, strLe, strLt, strLt]
  by_cases h : charsLt b.toList a.toList = true
  · right
    by_cases h2 : charsLt a.toList b.toList = true
    · exfalso
      have := charsLt_trans _ _ _ h h2
      rw [charsLt_irrefl] at this
      cases this
    · rw [bool_eq_false_of_ne_true h2]
      rfl
  · left
    rw [bool_eq_false_of_ne_true h]
    rfl

theorem strLe_trans (a b c : String) (h1 : strLe a b = true) (h2 : strLe b c = true) :
    strLe a c = true := by
  have h1' : charsLt b.toList a.toList = false := by
    rw [strLe, strLt] at h1
    cases hx : charsLt b.toList a.toList
    · rfl
    · rw [hx] at h1
      cases h1
  have h2' : charsLt c.toList b.toList = false := by
    rw [strLe, strLt] at h2
    cases hx : charsLt c.toList b.toList
    · rfl
    · rw [hx] at h2
      cases h2
  rw [strLe, strLt]
  by_cases h : charsLt c.toList a.toList = true
  · exfalso
    by_cases h3 : charsLt b.toList c.toList = true
    · have hba := charsLt_trans _ _ _ h3 h
      rw [h1'] at hba
      cases hba
    · have hbc := charsLt_connex _ _ (bool_eq_false_of_ne_true h3) h2'
      rw [hbc, h] at h1'
      cases h1'
  · rw [bool_eq_false_of_ne_true h]
    rfl

theorem strLe_antisymm (a b : String) (h1 : strLe a b = true) (h2 : strLe b a = true) :
    a = b := by
  rw [strLe, strLt] at h1 h2
  simp only [Bool.not_eq_true', Bool.not_eq_eq_eq_not, Bool.not_true] at h1 h2
  exact string_toList_inj (charsLt_connex _ _ h2 h1)

instance : IsTotal String attrLe := ⟨fun a b => strLe_total a b⟩

instance : IsTrans String attrLe := ⟨fun a b c => strLe_trans a b c⟩

instance : IsAntisymm String attrLe := ⟨fun a b => strLe_antisymm a b⟩

instance : IsTotal NodeDesc childLe := ⟨fun a b => strLe_total a.name b.name⟩

instance : IsTrans NodeDesc childLe := ⟨fun a b c => strLe_trans a.name b.name c.name⟩

/-- First child of a given name: the lookup discipline of getChildIndex. -/
def lookupName (cs : List NodeDesc) (x : String) : Option NodeDesc :=
  cs.find? (fun c => c.name == x)

theorem lookupName_nil (x : String) : lookupName [] x = none := rfl

theorem lookupName_cons_pos (c : NodeDesc) (r : List NodeDesc) (x : String)
    (h : c.name = x) : lookupName (c :: r) x = some c :=
  List.find?_cons_of_pos _ (by simp [h])

theorem lookupName_cons_neg (c : NodeDesc) (r : List NodeDesc) (x : String)
    (h : ¬ c.name = x) : lookupName (c :: r) x = lookupName r x :=
  List.find?_cons_of_neg _ (by simp [h])

theorem lookupName_eq_none_iff (cs : List NodeDesc) (x : String) :
    lookupName cs x = none ↔ x ∉ namesOf cs := by
  induction cs with
  | nil => simp [lookupName_nil, namesOf]
  | cons c r ih =>
    by_cases h : c.name = x
    · rw [lookupName_cons_pos c r x h]
      simp [namesOf, h]
    · rw [lookupName_cons_neg c r x h, ih]
      simp only [namesOf, List.map_cons, List.mem_cons]
      constructor
      · rintro hn (h1 | h1)
        · exact h h1.symm
        · exact hn h1
      · intro hn h1
        exact hn (Or.inr h1)

theorem lookupName_isSome_iff (cs : List NodeDesc) (x : String) :
    (lookupName cs x).isSome = true ↔ x ∈ namesOf cs := by
  cases hl : lookupName cs x with
  | none =>
    simp only [Option.isSome_none]
    constructor
    · intro h; cases h
    · intro h
      exact absurd ((lookupName_eq_none_iff cs x).mp hl) (by simpa using h)
  | some c =>
    simp only [Option.isSome_some, true_iff]
    by_contra hmem
    rw [← lookupName_eq_none_iff cs x] at hmem
    rw [hl] at hmem
    cases hmem

theorem lookupName_some (cs : List NodeDesc) (x : String) (c : NodeDesc)
    (h : lookupName cs x = some c) : c ∈ cs ∧ c.name = x := by
  constructor
  · exact List.mem_of_find?_eq_some h
  · have := List.find?_some h
    simpa using this

theorem lookupName_of_mem_nodup (cs : List NodeDesc) (c : NodeDesc)
    (hnd : (namesOf cs).Nodup) (hm : c ∈ cs) : lookupName cs c.name = some c := by
  induction cs with
  | nil => simp at hm
  | cons a r ih =>
    simp only [namesOf, List.map_cons, List.nodup_cons] at hnd
    rcases List.mem_cons.mp hm with rfl | hm2
    · exact lookupName_cons_pos c r c.name rfl
    · have hne : ¬ a.name = c.name := by
        intro he
        exact hnd.1 (he ▸ (List.mem_map_of_mem NodeDesc.name hm2))
      rw [lookupName_cons_neg a r c.name hne]
      exact ih hnd.2 hm2

theorem mem_eq_of_name_eq_of_nodup (cs : List NodeDesc) (a b : NodeDesc)
    (hnd : (namesOf cs).Nodup) (ha : a ∈ cs) (hb : b ∈ cs) (hn : a.name = b.name) :
    a = b := by
  have h1 := lookupName_of_mem_nodup cs a hnd ha
  have h2 := lookupName_of_mem_nodup cs b hnd hb
  rw [hn] at h1
  rw [h1] at h2
  injection h2

theorem lookupName_insertChildT (as' : List NodeDesc) (cb : NodeDesc) (x : String) :
    lookupName (insertChildT as' cb) x =
      if x = cb.name then
        match lookupName as' cb.name with
        | some a => some (combineNodesT a cb)
        | none => some cb
      else lookupName as' x := by
  induction as' with
  | nil =>
    rw [insertChildT]
    by_cases h : x = cb.name
    · rw [if_pos h, lookupName_nil, lookupName_cons_pos _ _ _ h.symm]
    · rw [if_neg h, lookupName_nil, lookupName_cons_neg _ _ _ (fun h2 => h h2.symm),
        lookupName_nil]
  | cons a rest ih =>
    rw [insertChildT]
    by_cases hm : a.name = cb.name
    · rw [if_pos hm]
      by_cases hx : x = cb.name
      · rw [if_pos hx,
          lookupName_cons_pos _ _ _ (by rw [combineNodesT_name, hm, hx]),
          lookupName_cons_pos _ _ _ (by rw [hm])]
      · rw [if_neg hx,
          lookupName_cons_neg _ _ _ (by rw [combineNodesT_name, hm]; exact fun h => hx h.symm),
          lookupName_cons_neg _ _ _ (by rw [hm]; exact fun h => hx h.symm)]
    · rw [if_neg hm]
      by_cases ha : a.name = x
      · have hx : ¬ x = cb.name := fun h => hm (ha.trans h)
        rw [if_neg hx, lookupName_cons_pos _ _ _ ha, lookupName_cons_pos _ _ _ ha]
      · rw [lookupName_cons_neg _ _ _ ha, ih]
        by_cases hx : x = cb.name
        · rw [if_pos hx, if_pos hx,
            lookupName_cons_neg _ _ _ (fun h => ha (h.trans hx.symm))]
        · rw [if_neg hx, if_neg hx, lookupName_cons_neg _ _ _ ha]

theorem lookupName_ccT (bs : List NodeDesc) :
    ∀ (as' : List NodeDesc) (x : String), (namesOf bs).Nodup →
    lookupName (combineChildrenT as' bs) x =
      match lookupName bs x with
      | some b =>
        match lookupName as' x with
        | some a => some (combineNodesT a b)
        | none => some b
      | none => lookupName as' x := by
  induction bs with
  | nil =>
    intro as' x _
    rw [combineChildrenT_nil, lookupName_nil]
  | cons cb rest ih =>
    intro as' x hnd
    simp only [namesOf, List.map_cons, List.nodup_cons] at hnd
    rw [combineChildrenT_cons, ih (insertChildT as' cb) x hnd.2]
    by_cases hx : x = cb.name
    · have hrest : lookupName rest x = none := by
        rw [lookupName_eq_none_iff]
        rw [hx]
        exact fun h => hnd.1 (by simpa [namesOf] using h)
      rw [hrest, lookupName_cons_pos _ _ _ hx.symm, lookupName_insertChildT, if_pos hx]
      subst hx
      cases lookupName as' cb.name with
      | none => rfl
      | some a => rfl
    · rw [lookupName_cons_neg _ _ _ (fun h => hx h.symm), lookupName_insertChildT,
        if_neg hx]

theorem sortNode_eq (n : NodeDesc) :
    sortNode n = .mk n.name n.isArray n.hasCharacterData
      (n.attributes.insertionSort attrLe)
      ((sortMap n.children).insertionSort childLe) := by
  cases n with
  | mk nm i h ats kids =>
    rw [sortNode]
    simp

theorem sortNode_name (n : NodeDesc) : (sortNode n).name = n.name := by
  rw [sortNode_eq]
  simp

theorem namesOf_sortMap (cs : List NodeDesc) : namesOf (sortMap cs) = namesOf cs := by
  induction cs with
  | nil => rw [sortMap]
  | cons c r ih =>
    rw [sortMap]
    simp only [namesOf, List.map_cons, sortNode_name]
    have ih2 : List.map NodeDesc.name (sortMap r) = List.map NodeDesc.name r := ih
    rw [ih2]

theorem mem_sortMap (cs : List NodeDesc) (y : NodeDesc) :
    y ∈ sortMap cs ↔ ∃ c ∈ cs, sortNode c = y := by
  induction cs with
  | nil =>
    rw [sortMap]
    simp
  | cons c r ih =>
    rw [sortMap]
    simp only [List.mem_cons, ih]
    constructor
    · rintro (h | h)
      · exact ⟨c, Or.inl rfl, h.symm⟩
      · obtain ⟨c2, hc2, he⟩ := h
        exact ⟨c2, Or.inr hc2, he⟩
    · rintro ⟨c2, (rfl | hc2), he⟩
      · exact Or.inl he.symm
      · exact Or.inr ⟨c2, hc2, he⟩

theorem lookupName_sortMap (cs : List NodeDesc) (x : String) :
    lookupName (sortMap cs) x = (lookupName cs x).map sortNode := by
  induction cs with
  | nil =>
    rw [sortMap, lookupName_nil]
    rfl
  | cons c r ih =>
    rw [sortMap]
    by_cases h : c.name = x
    · rw [lookupName_cons_pos _ _ _ (by rw [sortNode_name]; exact h),
        lookupName_cons_pos _ _ _ h]
      rfl
    · rw [lookupName_cons_neg _ _ _ (by rw [sortNode_name]; exact h),
        lookupName_cons_neg _ _ _ h, ih]

theorem lookupName_perm_of_nodup (l1 l2 : List NodeDesc) (hp : l1.Perm l2)
    (hnd : (namesOf l1).Nodup) (x : String) : lookupName l1 x = lookupName l2 x := by
  have hnd2 : (namesOf l2).Nodup := ((hp.map NodeDesc.name).nodup_iff).mp hnd
  cases hl : lookupName l1 x with
  | some c =>
    obtain ⟨hm, hn⟩ := lookupName_some l1 x c hl
    have hm2 : c ∈ l2 := hp.mem_iff.mp hm
    rw [← hn]
    exact (lookupName_of_mem_nodup l2 c hnd2 hm2).symm
  | none =>
    rw [lookupName_eq_none_iff] at hl
    have : x ∉ namesOf l2 := by
      intro h
      exact hl (((hp.map NodeDesc.name).mem_iff).mpr h)
    rw [eq_comm, lookupName_eq_none_iff]
    exact this

theorem sorted_nodupNames_eq : ∀ (l1 l2 : List NodeDesc), l1.Perm l2 →
    List.Sorted childLe l1 → List.Sorted childLe l2 → (namesOf l1).Nodup → l1 = l2 := by
  intro l1
  induction l1 with
  | nil =>
    intro l2 hp _ _ _
    exact (hp.symm.eq_nil).symm
  | cons c r ih =>
    intro l2 hp hs1 hs2 hnd
    cases l2 with
    | nil => exact absurd hp.eq_nil (by simp)
    | cons c2 r2 =>
      have hc2mem : c2 ∈ c :: r := hp.mem_iff.mpr (List.mem_cons_self _ _)
      have hcmem : c ∈ c2 :: r2 := hp.mem_iff.mp (List.mem_cons_self _ _)
      have hcc2 : c = c2 := by
        rcases List.mem_cons.mp hc2mem with h | h
        · exact h.symm
        rcases List.mem_cons.mp hcmem with h2 | h2
        · exact h2
        have hle1 : childLe c c2 := (List.sorted_cons.mp hs1).1 c2 h
        have hle2 : childLe c2 c := (List.sorted_cons.mp hs2).1 c h2
        have hname : c.name = c2.name := strLe_antisymm _ _ hle1 hle2
        exact mem_eq_of_name_eq_of_nodup (c :: r) c c2 hnd (List.mem_cons_self _ _)
          hc2mem hname
      subst hcc2
      have hr : r.Perm r2 := hp.cons_inv
      have hndr : (namesOf r).Nodup := by
        simp only [namesOf, List.map_cons, List.nodup_cons] at hnd
        exact hnd.2
      rw [ih r2 hr (List.sorted_cons.mp hs1).2 (List.sorted_cons.mp hs2).2 hndr]

theorem sortChildren_eq_of (cs1 cs2 : List NodeDesc)
    (h1 : (namesOf cs1).Nodup) (h2 : (namesOf cs2).Nodup)
    (hl : ∀ x, (lookupName cs1 x).map sortNode = (lookupName cs2 x).map sortNode) :
    (sortMap cs1).insertionSort childLe = (sortMap cs2).insertionSort childLe := by
  have hmem : ∀ y, y ∈ sortMap cs1 ↔ y ∈ sortMap cs2 := by
    intro y
    constructor
    · intro hy
      obtain ⟨c, hc, rfl⟩ := (mem_sortMap cs1 y).mp hy
      have hlc := lookupName_of_mem_nodup cs1 c h1 hc
      have := hl c.name
      rw [hlc, Option.map_some'] at this
      cases hl2 : lookupName cs2 c.name with
      | none => rw [hl2] at this; cases this
      | some c2 =>
        rw [hl2, Option.map_some'] at this
        have hm2 := (lookupName_some cs2 c.name c2 hl2).1
        injection this with this
        exact (mem_sortMap cs2 _).mpr ⟨c2, hm2, this.symm⟩
    · intro hy
      obtain ⟨c, hc, rfl⟩ := (mem_sortMap cs2 y).mp hy
      have hlc := lookupName_of_mem_nodup cs2 c h2 hc
      have := hl c.name
      rw [hlc, Option.map_some'] at this
      cases hl2 : lookupName cs1 c.name with
      | none => rw [hl2] at this; cases this
      | some c2 =>
        rw [hl2, Option.map_some'] at this
        have hm2 := (lookupName_some cs1 c.name c2 hl2).1
        injection this with this
        exact (mem_sortMap cs1 _).mpr ⟨c2, hm2, this⟩
  have hnd1 : (sortMap cs1).Nodup := by
    have : (namesOf (sortMap cs1)).Nodup := by rw [namesOf_sortMap]; exact h1
    exact List.Nodup.of_map _ this
  have hnd2 : (sortMap cs2).Nodup := by
    have : (namesOf (sortMap cs2)).Nodup := by rw [namesOf_sortMap]; exact h2
    exact List.Nodup.of_map _ this
  have hperm : (sortMap cs1).Perm (sortMap cs2) :=
    (List.perm_ext_iff_of_nodup hnd1 hnd2).mpr hmem
  have hperm2 : ((sortMap cs1).insertionSort childLe).Perm
      ((sortMap cs2).insertionSort childLe) :=
    ((List.perm_insertionSort childLe (sortMap cs1)).trans hperm).trans
      (List.perm_insertionSort childLe (sortMap cs2)).symm
  refine sorted_nodupNames_eq _ _ hperm2 (List.sorted_insertionSort childLe _)
    (List.sorted_insertionSort childLe _) ?_
  have : (namesOf ((sortMap cs1).insertionSort childLe)).Perm (namesOf (sortMap cs1)) :=
    (List.perm_insertionSort childLe (sortMap cs1)).map NodeDesc.name
  refine this.nodup_iff.mpr ?_
  rw [namesOf_sortMap]
  exact h1

theorem insertionSortStr_eq_of (l1 l2 : List String)
    (h1 : l1.Nodup) (h2 : l2.Nodup) (hmem : ∀ x, x ∈ l1 ↔ x ∈ l2) :
    l1.insertionSort attrLe = l2.insertionSort attrLe := by
  have hperm : l1.Perm l2 := (List.perm_ext_iff_of_nodup h1 h2).mpr hmem
  have hperm2 : (l1.insertionSort attrLe).Perm (l2.insertionSort attrLe) :=
    ((List.perm_insertionSort attrLe l1).trans hperm).trans
      (List.perm_insertionSort attrLe l2).symm
  exact List.eq_of_perm_of_sorted hperm2 (List.sorted_insertionSort attrLe l1)
    (List.sorted_insertionSort attrLe l2)

theorem namesOf_insertChildT_eq (as' : List NodeDesc) (cb : NodeDesc) :
    namesOf (insertChildT as' cb) =
      if cb.name ∈ namesOf as' then namesOf as' else namesOf as' ++ [cb.name] := by
  induction as' with
  | nil =>
    rw [insertChildT]
    simp [namesOf]
  | cons a rest ih =>
    rw [insertChildT]
    by_cases hm : a.name = cb.name
    · rw [if_pos hm]
      have hc : cb.name ∈ namesOf (a :: rest) := by simp [namesOf, hm]
      rw [if_pos hc]
      simp [namesOf, combineNodesT_name, hm]
    · rw [if_neg hm]
      by_cases hr : cb.name ∈ namesOf rest
      · have hc : cb.name ∈ namesOf (a :: rest) := by
          simp only [namesOf, List.map_cons, List.mem_cons]
          exact Or.inr hr
        rw [if_pos hc]
        simp only [namesOf, List.map_cons]
        have ih2 : List.map NodeDesc.name (insertChildT rest cb) =
            List.map NodeDesc.name rest := by
          have := ih
          rw [if_pos hr] at this
          exact this
        rw [ih2]
      · have hc : cb.name ∉ namesOf (a :: rest) := by
          simp only [namesOf, List.map_cons, List.mem_cons]
          rintro (h | h)
          · exact hm h.symm
          · exact hr h
        rw [if_neg hc]
        simp only [namesOf, List.map_cons, List.cons_append]
        have ih2 : List.map NodeDesc.name (insertChildT rest cb) =
            List.map NodeDesc.name rest ++ [cb.name] := by
          have := ih
          rw [if_neg hr] at this
          exact this
        rw [ih2]

theorem nodupNames_insertChildT (as' : List NodeDesc) (cb : NodeDesc)
    (h : (namesOf as').Nodup) : (namesOf (insertChildT as' cb)).Nodup := by
  rw [namesOf_insertChildT_eq]
  by_cases hm : cb.name ∈ namesOf as'
  · rw [if_pos hm]
    exact h
  · rw [if_neg hm]
    simp [List.nodup_append, h, hm]

theorem nodupNames_ccT (bs as' : List NodeDesc) (h : (namesOf as').Nodup) :
    (namesOf (combineChildrenT as' bs)).Nodup := by
  induction bs generalizing as' with
  | nil => rw [combineChildrenT_nil]; exact h
  | cons cb rest ih =>
    rw [combineChildrenT_cons]
    exact ih (insertChildT as' cb) (nodupNames_insertChildT as' cb h)

theorem WFNames_combT : ∀ N,
    (∀ b : NodeDesc, sizeOf b ≤ N → ∀ a, WFNames a → WFNames b →
      WFNames (combineNodesT a b)) ∧
    (∀ cb : NodeDesc, sizeOf cb ≤ N → ∀ as', WFL as' → WFNames cb →
      WFL (insertChildT as' cb)) ∧
    (∀ bs : List NodeDesc, sizeOf bs ≤ N → ∀ as', WFL as' → (∀ x ∈ bs, WFNames x) →
      WFL (combineChildrenT as' bs)) := by
  intro N
  induction N using Nat.strong_induction_on with
  | _ N ih =>
    have hnode : ∀ b : NodeDesc, sizeOf b ≤ N → ∀ a, WFNames a → WFNames b →
        WFNames (combineNodesT a b) := by
      intro b hb a hwa hwb
      rw [combineNodesT_eq, WFNames_iff_WFL]
      simp only [NodeDesc.children_mk]
      have hsz : sizeOf b.children < sizeOf b := NodeDesc.sizeOf_children_lt b
      exact (ih (sizeOf b.children) (by omega)).2.2 b.children (le_refl _) a.children
        ((WFNames_iff_WFL a).mp hwa) ((WFNames_iff_WFL b).mp hwb).2
    have hins : ∀ cb : NodeDesc, sizeOf cb ≤ N → ∀ as', WFL as' → WFNames cb →
        WFL (insertChildT as' cb) := by
      intro cb hcb as' hwas hwcb
      refine ⟨nodupNames_insertChildT as' cb hwas.1, ?_⟩
      have hmem := hwas.2
      clear hwas
      induction as' with
      | nil =>
        rw [insertChildT]
        intro x hx
        rcases List.mem_cons.mp hx with rfl | hx2
        · exact hwcb
        · simp at hx2
      | cons a rest ihr =>
        rw [insertChildT]
        by_cases hm : a.name = cb.name
        · rw [if_pos hm]
          intro x hx
          rcases List.mem_cons.mp hx with rfl | hx2
          · exact hnode cb hcb a (hmem a (List.mem_cons_self _ _)) hwcb
          · exact hmem x (List.mem_cons_of_mem _ hx2)
        · rw [if_neg hm]
          intro x hx
          rcases List.mem_cons.mp hx with rfl | hx2
          · exact hmem x (List.mem_cons_self _ _)
          · exact ihr (fun y hy => hmem y (List.mem_cons_of_mem _ hy)) x hx2
    refine ⟨hnode, hins, ?_⟩
    intro bs hbs as' hwas hwbs
    induction bs generalizing as' with
    | nil => rw [combineChildrenT_nil]; exact hwas
    | cons cb rest ihr =>
      rw [combineChildrenT_cons]
      have h1 : sizeOf cb ≤ N := by
        have : sizeOf cb < sizeOf (cb :: rest) := by
          simp only [List.cons.sizeOf_spec]
          omega
        omega
      refine ihr ?_ (insertChildT as' cb)
        (hins cb h1 as' hwas (hwbs cb (List.mem_cons_self _ _))) ?_
      · have : sizeOf rest < sizeOf (cb :: rest) := by
          simp only [List.cons.sizeOf_spec]
          omega
        omega
      · exact fun x hx => hwbs x (List.mem_cons_of_mem _ hx)

theorem WFNames_combineNodesT (a b : NodeDesc) (ha : WFNames a) (hb : WFNames b) :
    WFNames (combineNodesT a b) :=
  (WFNames_combT (sizeOf b)).1 b (le_refl _) a ha hb

theorem mem_addAttr_iff (acc : List String) (x y : String) :
    y ∈ addAttr acc x ↔ y ∈ acc ∨ y = x := by
  rw [addAttr]
  by_cases h : containsAttribute acc x = true
  · rw [if_pos h]
    constructor
    · exact Or.inl
    · rintro (h2 | rfl)
      · exact h2
      · exact (containsAttribute_true_iff acc y).mp h
  · rw [if_neg h]
    simp

theorem mem_foldl_addAttr_iff (B A : List String) (y : String) :
    y ∈ B.foldl addAttr A ↔ y ∈ A ∨ y ∈ B := by
  induction B generalizing A with
  | nil => simp
  | cons b r ih =>
    rw [List.foldl_cons, ih, mem_addAttr_iff]
    simp only [List.mem_cons]
    tauto

theorem nodup_addAttr (acc : List String) (x : String) (h : acc.Nodup) :
    (addAttr acc x).Nodup := by
  rw [addAttr]
  by_cases hc : containsAttribute acc x = true
  · rw [if_pos hc]
    exact h
  · rw [if_neg hc]
    have : x ∉ acc := fun hm => hc ((containsAttribute_true_iff acc x).mpr hm)
    simp [List.nodup_append, h, this]

theorem nodup_foldl_addAttr (B A : List String) (h : A.Nodup) :
    (B.foldl addAttr A).Nodup := by
  induction B generalizing A with
  | nil => simpa using h
  | cons b r ih =>
    rw [List.foldl_cons]
    exact ih (addAttr A b) (nodup_addAttr A b h)

/-- Recursively duplicate-free attribute lists: the other tree invariant of
ingested trees. -/
def WFAttrs (n : NodeDesc) : Prop :=
  n.attributes.Nodup ∧ ∀ c ∈ n.children, WFAttrs c
termination_by sizeOf n
decreasing_by
  have h1 := List.sizeOf_lt_of_mem (show c ∈ n.children by assumption)
  have h2 := NodeDesc.sizeOf_children_lt n
  omega

theorem WFAttrs_elim {n : NodeDesc} (h : WFAttrs n) :
    n.attributes.Nodup ∧ ∀ c ∈ n.children, WFAttrs c := by
  rw [WFAttrs] at h
  exact h

theorem WFAttrs_intro (n : NodeDesc) (h1 : n.attributes.Nodup)
    (h2 : ∀ c ∈ n.children, WFAttrs c) : WFAttrs n := by
  rw [WFAttrs]
  exact ⟨h1, h2⟩

theorem WFAttrs_fresh (nm : String) : WFAttrs (freshNode nm) := by
  rw [WFAttrs]
  simp [freshNode]

theorem WFAttrs_emptyRoot : WFAttrs emptyRoot := by
  rw [WFAttrs]
  simp [emptyRoot]

theorem nodup_recordAttr (attrs : List String) (x : XMLAttr) (h : attrs.Nodup) :
    (recordAttr attrs x).Nodup := by
  rw [recordAttr]
  by_cases hv : x.value = ""
  · rw [if_pos hv]
    exact h
  · rw [if_neg hv]
    by_cases hc : containsAttribute attrs x.name = true
    · rw [if_pos hc]
      exact h
    · rw [if_neg hc]
      have : x.name ∉ attrs := fun hm => hc ((containsAttribute_true_iff attrs x.name).mpr hm)
      simp [List.nodup_append, h, this]

theorem nodup_recordAttrs (xs : List XMLAttr) (attrs : List String) (h : attrs.Nodup) :
    (recordAttrs attrs xs).Nodup := by
  induction xs generalizing attrs with
  | nil => simpa [recordAttrs] using h
  | cons x r ih =>
    have hstep : recordAttrs attrs (x :: r) = recordAttrs (recordAttr attrs x) r := by
      simp [recordAttrs]
    rw [hstep]
    exact ih (recordAttr attrs x) (nodup_recordAttr attrs x h)

theorem WFAttrs_setArrayFlag (f : Bool) (c : NodeDesc) (h : WFAttrs c) :
    WFAttrs (setArrayFlag f c) := by
  rw [WFAttrs] at h ⊢
  simpa [setArrayFlag] using h

/-- Entry-wise WFAttrs for a child list. -/
def WAL (cs : List NodeDesc) : Prop := ∀ x ∈ cs, WFAttrs x

theorem WAL_markArray (cs : List NodeDesc) (nm : String) (f : Bool) (h : WAL cs) :
    WAL (markArray cs nm f) := by
  induction cs with
  | nil => rw [markArray]; exact h
  | cons c r ih =>
    rw [markArray]
    by_cases hc : c.name = nm
    · rw [if_pos hc]
      intro x hx
      rcases List.mem_cons.mp hx with rfl | hx2
      · exact WFAttrs_setArrayFlag f c (h c (List.mem_cons_self _ _))
      · exact h x (List.mem_cons_of_mem _ hx2)
    · rw [if_neg hc]
      intro x hx
      rcases List.mem_cons.mp hx with rfl | hx2
      · exact h x (List.mem_cons_self _ _)
      · exact ih (fun y hy => h y (List.mem_cons_of_mem _ hy)) x hx2

theorem WAL_upsertG {nm : String} {g : NodeDesc → NodeDesc}
    (HgWF : ∀ c, WFAttrs c → WFAttrs (g c)) (cs : List NodeDesc) (h : WAL cs) :
    WAL (upsertG nm g cs) := by
  induction cs with
  | nil =>
    rw [upsertG]
    intro x hx
    rcases List.mem_cons.mp hx with rfl | hx2
    · exact HgWF _ (WFAttrs_fresh nm)
    · simp at hx2
  | cons c r ih =>
    rw [upsertG]
    by_cases hc : c.name = nm
    · rw [if_pos hc]
      intro x hx
      rcases List.mem_cons.mp hx with rfl | hx2
      · exact HgWF c (h c (List.mem_cons_self _ _))
      · exact h x (List.mem_cons_of_mem _ hx2)
    · rw [if_neg hc]
      intro x hx
      rcases List.mem_cons.mp hx with rfl | hx2
      · exact h x (List.mem_cons_self _ _)
      · exact ih (fun y hy => h y (List.mem_cons_of_mem _ hy)) x hx2

theorem WFAttrs_updateNode : ∀ N, ∀ d : XMLNode, sizeOf d ≤ N →
    ∀ b, WFAttrs b → WFAttrs (updateNode d b) := by
  intro N
  induction N using Nat.strong_induction_on with
  | _ N ih =>
    intro d hd b hb
    have hkf : ∀ subs, (∀ s ∈ subs, sizeOf s < sizeOf d) → ∀ all cs, WAL cs →
        WAL (kidsFold all subs cs) := by
      intro subs
      induction subs with
      | nil =>
        intro _ all cs h
        rw [kidsFold]
        exact h
      | cons s rest ihs =>
        intro hbnd all cs h
        rw [kidsFold]
        refine ihs (fun t ht => hbnd t (by simp [ht])) all _ ?_
        refine WAL_markArray _ _ _ ?_
        rw [parseList_eq_upsertG]
        exact WAL_upsertG (fun c hc => ih (sizeOf s) (by
          have := hbnd s (by simp)
          omega) s (le_refl _) c hc) cs h
    rw [updateNode_eq]
    rw [WFAttrs]
    simp only [NodeDesc.attributes_mk, NodeDesc.children_mk]
    refine ⟨nodup_recordAttrs _ _ (WFAttrs_elim hb).1, ?_⟩
    intro c hc
    exact hkf d.nodes (fun s hs => sizeOf_mem_nodes_lt hs) d.nodes b.children
      (fun x hx => (WFAttrs_elim hb).2 x hx) c hc

theorem WFAttrs_parseNode (d : XMLNode) (t : NodeDesc) (h : WFAttrs t) :
    WFAttrs (parseNode d t) := by
  rw [parseNode_eq, WFAttrs]
  simp only [NodeDesc.attributes_mk, NodeDesc.children_mk]
  refine ⟨(WFAttrs_elim h).1, ?_⟩
  intro c hc
  rw [parseList_eq_upsertG] at hc
  exact WAL_upsertG (fun x hx => WFAttrs_updateNode (sizeOf d) d (le_refl _) x hx)
    t.children (fun x hx => (WFAttrs_elim h).2 x hx) c hc

theorem WFAttrs_ingestAll (ds : List XMLNode) (t : NodeDesc) (h : WFAttrs t) :
    WFAttrs (ingestAll t ds) := by
  induction ds generalizing t with
  | nil => exact h
  | cons d r ihd =>
    have h1 : ingestAll t (d :: r) = ingestAll (parseNode d t) r := by
      simp [ingestAll, ingest]
    rw [h1]
    exact ihd (parseNode d t) (WFAttrs_parseNode d t h)

theorem WFAttrs_combT : ∀ N,
    (∀ b : NodeDesc, sizeOf b ≤ N → ∀ a, WFAttrs a → WFAttrs b →
      WFAttrs (combineNodesT a b)) ∧
    (∀ cb : NodeDesc, sizeOf cb ≤ N → ∀ as', WAL as' → WFAttrs cb →
      WAL (insertChildT as' cb)) ∧
    (∀ bs : List NodeDesc, sizeOf bs ≤ N → ∀ as', WAL as' → (∀ x ∈ bs, WFAttrs x) →
      WAL (combineChildrenT as' bs)) := by
  intro N
  induction N using Nat.strong_induction_on with
  | _ N ih =>
    have hnode : ∀ b : NodeDesc, sizeOf b ≤ N → ∀ a, WFAttrs a → WFAttrs b →
        WFAttrs (combineNodesT a b) := by
      intro b hb a hwa hwb
      rw [combineNodesT_eq, WFAttrs]
      simp only [NodeDesc.attributes_mk, NodeDesc.children_mk]
      refine ⟨nodup_foldl_addAttr _ _ (WFAttrs_elim hwa).1, ?_⟩
      have hsz : sizeOf b.children < sizeOf b := NodeDesc.sizeOf_children_lt b
      exact (ih (sizeOf b.children) (by omega)).2.2 b.children (le_refl _) a.children
        (fun x hx => (WFAttrs_elim hwa).2 x hx) (fun x hx => (WFAttrs_elim hwb).2 x hx)
    have hins : ∀ cb : NodeDesc, sizeOf cb ≤ N → ∀ as', WAL as' → WFAttrs cb →
        WAL (insertChildT as' cb) := by
      intro cb hcb as' hwas hwcb
      induction as' with
      | nil =>
        rw [insertChildT]
        intro x hx
        rcases List.mem_cons.mp hx with rfl | hx2
        · exact hwcb
        · simp at hx2
      | cons a rest ihr =>
        rw [insertChildT]
        by_cases hm : a.name = cb.name
        · rw [if_pos hm]
          intro x hx
          rcases List.mem_cons.mp hx with rfl | hx2
          · exact hnode cb hcb a (hwas a (List.mem_cons_self _ _)) hwcb
          · exact hwas x (List.mem_cons_of_mem _ hx2)
        · rw [if_neg hm]
          intro x hx
          rcases List.mem_cons.mp hx with rfl | hx2
          · exact hwas x (List.mem_cons_self _ _)
          · exact ihr (fun y hy => hwas y (List.mem_cons_of_mem _ hy)) x hx2
    refine ⟨hnode, hins, ?_⟩
    intro bs hbs as' hwas hwbs
    induction bs generalizing as' with
    | nil => rw [combineChildrenT_nil]; exact hwas
    | cons cb rest ihr =>
      rw [combineChildrenT_cons]
      have h1 : sizeOf cb ≤ N := by
        have : sizeOf cb < sizeOf (cb :: rest) := by
          simp only [List.cons.sizeOf_spec]
          omega
        omega
      refine ihr ?_ (insertChildT as' cb)
        (hins cb h1 as' hwas (hwbs cb (List.mem_cons_self _ _))) ?_
      · have : sizeOf rest < sizeOf (cb :: rest) := by
          simp only [List.cons.sizeOf_spec]
          omega
        omega
      · exact fun x hx => hwbs x (List.mem_cons_of_mem _ hx)

theorem WFAttrs_combineNodesT (a b : NodeDesc) (ha : WFAttrs a) (hb : WFAttrs b) :
    WFAttrs (combineNodesT a b) :=
  (WFAttrs_combT (sizeOf b)).1 b (le_refl _) a ha hb

theorem combineNodesT_isArray (a b : NodeDesc) :
    (combineNodesT a b).isArray = (a.isArray || b.isArray) := by
  rw [combineNodesT_eq]
  simp

theorem combineNodesT_hcd (a b : NodeDesc) :
    (combineNodesT a b).hasCharacterData = (a.hasCharacterData || b.hasCharacterData) := by
  rw [combineNodesT_eq]
  simp

theorem combineNodesT_attributes (a b : NodeDesc) :
    (combineNodesT a b).attributes = b.attributes.foldl addAttr a.attributes := by
  rw [combineNodesT_eq]
  simp

theorem combineNodesT_children (a b : NodeDesc) :
    (combineNodesT a b).children = combineChildrenT a.children b.children := by
  rw [combineNodesT_eq]
  simp

theorem map_sortNode_cases (o1 o2 : Option NodeDesc)
    (h : o1.map sortNode = o2.map sortNode) :
    (o1 = none ∧ o2 = none) ∨
    (∃ c1 c2, o1 = some c1 ∧ o2 = some c2 ∧ sortNode c1 = sortNode c2) := by
  cases o1 with
  | none =>
    cases o2 with
    | none => exact Or.inl ⟨rfl, rfl⟩
    | some c2 => simp at h
  | some c1 =>
    cases o2 with
    | none => simp at h
    | some c2 =>
      simp only [Option.map_some'] at h
      injection h with h
      exact Or.inr ⟨c1, c2, rfl, rfl, h⟩

theorem WFNames_of_lookup {P : NodeDesc} {x : String} {c : NodeDesc}
    (hwf : WFNames P) (h : lookupName P.children x = some c) : WFNames c :=
  (WFNames_elim hwf).2 c (lookupName_some _ _ _ h).1

theorem WFAttrs_of_lookup {P : NodeDesc} {x : String} {c : NodeDesc}
    (hwf : WFAttrs P) (h : lookupName P.children x = some c) : WFAttrs c :=
  (WFAttrs_elim hwf).2 c (lookupName_some _ _ _ h).1

theorem lookup_name_of_some {cs : List NodeDesc} {x : String} {c : NodeDesc}
    (h : lookupName cs x = some c) : c.name = x :=
  (lookupName_some _ _ _ h).2

/-- Canonical-form equality of two well-formed nodes, characterized by name,
flags, attribute sets and name-indexed canonical children. -/
theorem sortNode_eq_iff (X Y : NodeDesc)
    (hx : WFNames X) (hy : WFNames Y)
    (hax : X.attributes.Nodup) (hay : Y.attributes.Nodup) :
    sortNode X = sortNode Y ↔
      (X.name = Y.name ∧ X.isArray = Y.isArray ∧
       X.hasCharacterData = Y.hasCharacterData ∧
       (∀ s, s ∈ X.attributes ↔ s ∈ Y.attributes) ∧
       (∀ x, (lookupName X.children x).map sortNode =
         (lookupName Y.children x).map sortNode)) := by
  constructor
  · intro h
    rw [sortNode_eq, sortNode_eq] at h
    injection h with h1 h2 h3 h4 h5
    refine ⟨h1, h2, h3, ?_, ?_⟩
    · intro s
      constructor
      · intro hs
        have : s ∈ Y.attributes.insertionSort attrLe := by
          rw [← h4]
          exact ((List.perm_insertionSort attrLe X.attributes).mem_iff).mpr hs
        exact ((List.perm_insertionSort attrLe Y.attributes).mem_iff).mp this
      · intro hs
        have : s ∈ X.attributes.insertionSort attrLe := by
          rw [h4]
          exact ((List.perm_insertionSort attrLe Y.attributes).mem_iff).mpr hs
        exact ((List.perm_insertionSort attrLe X.attributes).mem_iff).mp this
    · intro x
      have hndx : (namesOf (sortMap X.children)).Nodup := by
        rw [namesOf_sortMap]
        exact ((WFNames_iff_WFL X).mp hx).1
      have hndy : (namesOf (sortMap Y.children)).Nodup := by
        rw [namesOf_sortMap]
        exact ((WFNames_iff_WFL Y).mp hy).1
      have e1 : lookupName (sortMap X.children) x =
          lookupName ((sortMap X.children).insertionSort childLe) x :=
        lookupName_perm_of_nodup _ _ (List.perm_insertionSort childLe _).symm hndx x
      have e2 : lookupName (sortMap Y.children) x =
          lookupName ((sortMap Y.children).insertionSort childLe) x :=
        lookupName_perm_of_nodup _ _ (List.perm_insertionSort childLe _).symm hndy x
      rw [← lookupName_sortMap, ← lookupName_sortMap, e1, e2, h5]
  · rintro ⟨h1, h2, h3, h4, h5⟩
    rw [sortNode_eq, sortNode_eq, h1, h2, h3]
    rw [insertionSortStr_eq_of X.attributes Y.attributes hax hay h4]
    rw [sortChildren_eq_of X.children Y.children ((WFNames_iff_WFL X).mp hx).1
      ((WFNames_iff_WFL Y).mp hy).1 h5]

/-- Canonical congruence of the merge: merging canonically equal trees gives
canonically equal results. -/
theorem sortNode_combT_congr : ∀ N, ∀ A B A' B' : NodeDesc,
    sizeOf A + sizeOf B ≤ N →
    WFNames A → WFNames B → WFNames A' → WFNames B' →
    WFAttrs A → WFAttrs B → WFAttrs A' → WFAttrs B' →
    sortNode A = sortNode A' → sortNode B = sortNode B' →
    sortNode (combineNodesT A B) = sortNode (combineNodesT A' B') := by
  intro N
  induction N using Nat.strong_induction_on with
  | _ N ih =>
    intro A B A' B' hsz nA nB nA' nB' aA aB aA' aB' hA hB
    obtain ⟨e1, e2, e3, e4, e5⟩ := (sortNode_eq_iff A A' nA nA' (WFAttrs_elim aA).1
      (WFAttrs_elim aA').1).mp hA
    obtain ⟨f1, f2, f3, f4, f5⟩ := (sortNode_eq_iff B B' nB nB' (WFAttrs_elim aB).1
      (WFAttrs_elim aB').1).mp hB
    rw [sortNode_eq_iff (combineNodesT A B) (combineNodesT A' B')
      (WFNames_combineNodesT A B nA nB) (WFNames_combineNodesT A' B' nA' nB')
      (by rw [combineNodesT_attributes]; exact nodup_foldl_addAttr _ _ (WFAttrs_elim aA).1)
      (by rw [combineNodesT_attributes]; exact nodup_foldl_addAttr _ _ (WFAttrs_elim aA').1)]
    refine ⟨by rw [combineNodesT_name, combineNodesT_name, e1],
      by rw [combineNodesT_isArray, combineNodesT_isArray, e2, f2],
      by rw [combineNodesT_hcd, combineNodesT_hcd, e3, f3], ?_, ?_⟩
    · intro s
      rw [combineNodesT_attributes, combineNodesT_attributes,
        mem_foldl_addAttr_iff, mem_foldl_addAttr_iff, e4 s, f4 s]
    · intro x
      rw [combineNodesT_children, combineNodesT_children,
        lookupName_ccT B.children A.children x ((WFNames_iff_WFL B).mp nB).1,
        lookupName_ccT B'.children A'.children x ((WFNames_iff_WFL B').mp nB').1]
      rcases map_sortNode_cases _ _ (f5 x) with ⟨hb, hb'⟩ | ⟨b1, b2, hb, hb', hbe⟩
      · rw [hb, hb']
        exact e5 x
      · rw [hb, hb']
        rcases map_sortNode_cases _ _ (e5 x) with ⟨ha, ha'⟩ | ⟨a1, a2, ha, ha', hae⟩
        · rw [ha, ha']
          simp only [Option.map_some']
          rw [hbe]
        · rw [ha, ha']
          simp only [Option.map_some']
          have hszc : sizeOf a1 + sizeOf b1 < sizeOf A + sizeOf B := by
            have s1 := List.sizeOf_lt_of_mem (lookupName_some _ _ _ ha).1
            have s2 := List.sizeOf_lt_of_mem (lookupName_some _ _ _ hb).1
            have s3 := NodeDesc.sizeOf_children_lt A
            have s4 := NodeDesc.sizeOf_children_lt B
            omega
          rw [ih (sizeOf a1 + sizeOf b1) (by omega) a1 b1 a2 b2 (le_refl _)
            (WFNames_of_lookup nA ha) (WFNames_of_lookup nB hb)
            (WFNames_of_lookup nA' ha') (WFNames_of_lookup nB' hb')
            (WFAttrs_of_lookup aA ha) (WFAttrs_of_lookup aB hb)
            (WFAttrs_of_lookup aA' ha') (WFAttrs_of_lookup aB' hb') hae hbe]

/-- Canonical commutativity of the merge on equally named well-formed trees. -/
theorem sortNode_combT_comm : ∀ N, ∀ A B : NodeDesc,
    sizeOf A + sizeOf B ≤ N → A.name = B.name →
    WFNames A → WFNames B → WFAttrs A → WFAttrs B →
    sortNode (combineNodesT A B) = sortNode (combineNodesT B A) := by
  intro N
  induction N using Nat.strong_induction_on with
  | _ N ih =>
    intro A B hsz hname nA nB aA aB
    rw [sortNode_eq_iff (combineNodesT A B) (combineNodesT B A)
      (WFNames_combineNodesT A B nA nB) (WFNames_combineNodesT B A nB nA)
      (by rw [combineNodesT_attributes]; exact nodup_foldl_addAttr _ _ (WFAttrs_elim aA).1)
      (by rw [combineNodesT_attributes]; exact nodup_foldl_addAttr _ _ (WFAttrs_elim aB).1)]
    refine ⟨by rw [combineNodesT_name, combineNodesT_name, hname],
      by rw [combineNodesT_isArray, combineNodesT_isArray, Bool.or_comm],
      by rw [combineNodesT_hcd, combineNodesT_hcd, Bool.or_comm], ?_, ?_⟩
    · intro s
      rw [combineNodesT_attributes, combineNodesT_attributes,
        mem_foldl_addAttr_iff, mem_foldl_addAttr_iff]
      tauto
    · intro x
      rw [combineNodesT_children, combineNodesT_children,
        lookupName_ccT B.children A.children x ((WFNames_iff_WFL B).mp nB).1,
        lookupName_ccT A.children B.children x ((WFNames_iff_WFL A).mp nA).1]
      cases hb : lookupName B.children x with
      | none =>
        cases ha : lookupName A.children x with
        | none => rfl
        | some a => rfl
      | some b =>
        cases ha : lookupName A.children x with
        | none => rfl
        | some a =>
          simp only [Option.map_some']
          have hszc : sizeOf a + sizeOf b < sizeOf A + sizeOf B := by
            have s1 := List.sizeOf_lt_of_mem (lookupName_some _ _ _ ha).1
            have s2 := List.sizeOf_lt_of_mem (lookupName_some _ _ _ hb).1
            have s3 := NodeDesc.sizeOf_children_lt A
            have s4 := NodeDesc.sizeOf_children_lt B
            omega
          rw [ih (sizeOf a + sizeOf b) (by omega) a b (le_refl _)
            (by rw [lookup_name_of_some ha, lookup_name_of_some hb])
            (WFNames_of_lookup nA ha) (WFNames_of_lookup nB hb)
            (WFAttrs_of_lookup aA ha) (WFAttrs_of_lookup aB hb)]

/-- Canonical associativity of the merge on well-formed trees. -/
theorem sortNode_combT_assoc : ∀ N, ∀ A B C : NodeDesc,
    sizeOf A + sizeOf B + sizeOf C ≤ N →
    WFNames A → WFNames B → WFNames C → WFAttrs A → WFAttrs B → WFAttrs C →
    sortNode (combineNodesT (combineNodesT A B) C) =
      sortNode (combineNodesT A (combineNodesT B C)) := by
  intro N
  induction N using Nat.strong_induction_on with
  | _ N ih =>
    intro A B C hsz nA nB nC aA aB aC
    rw [sortNode_eq_iff (combineNodesT (combineNodesT A B) C)
      (combineNodesT A (combineNodesT B C))
      (WFNames_combineNodesT _ C (WFNames_combineNodesT A B nA nB) nC)
      (WFNames_combineNodesT A _ nA (WFNames_combineNodesT B C nB nC))
      (by rw [combineNodesT_attributes]
          refine nodup_foldl_addAttr _ _ ?_
          rw [combineNodesT_attributes]
          exact nodup_foldl_addAttr _ _ (WFAttrs_elim aA).1)
      (by rw [combineNodesT_attributes]
          exact nodup_foldl_addAttr _ _ (WFAttrs_elim aA).1)]
    refine ⟨by rw [combineNodesT_name, combineNodesT_name, combineNodesT_name],
      by rw [combineNodesT_isArray, combineNodesT_isArray, combineNodesT_isArray,
        combineNodesT_isArray, Bool.or_assoc],
      by rw [combineNodesT_hcd, combineNodesT_hcd, combineNodesT_hcd,
        combineNodesT_hcd, Bool.or_assoc], ?_, ?_⟩
    · intro s
      rw [combineNodesT_attributes, combineNodesT_attributes, combineNodesT_attributes,
        combineNodesT_attributes, mem_foldl_addAttr_iff, mem_foldl_addAttr_iff,
        mem_foldl_addAttr_iff, mem_foldl_addAttr_iff]
      tauto
    · intro x
      have hndBC : (namesOf (combineChildrenT B.children C.children)).Nodup :=
        nodupNames_ccT C.children B.children ((WFNames_iff_WFL B).mp nB).1
      rw [combineNodesT_children, combineNodesT_children, combineNodesT_children,
        combineNodesT_children,
        lookupName_ccT C.children (combineChildrenT A.children B.children) x
          ((WFNames_iff_WFL C).mp nC).1,
        lookupName_ccT (combineChildrenT B.children C.children) A.children x hndBC,
        lookupName_ccT B.children A.children x ((WFNames_iff_WFL B).mp nB).1,
        lookupName_ccT C.children B.children x ((WFNames_iff_WFL C).mp nC).1]
      cases hc : lookupName C.children x with
      | none =>
        cases hb : lookupName B.children x with
        | none =>
          cases ha : lookupName A.children x with
          | none => rfl
          | some a => rfl
        | some b =>
          cases ha : lookupName A.children x with
          | none => rfl
          | some a => rfl
      | some c =>
        cases hb : lookupName B.children x with
        | none =>
          cases ha : lookupName A.children x with
          | none => rfl
          | some a => rfl
        | some b =>
          cases ha : lookupName A.children x with
          | none => rfl
          | some a =>
            simp only [Option.map_some']
            have hszc : sizeOf a + sizeOf b + sizeOf c <
                sizeOf A + sizeOf B + sizeOf C := by
              have s1 := List.sizeOf_lt_of_mem (lookupName_some _ _ _ ha).1
              have s2 := List.sizeOf_lt_of_mem (lookupName_some _ _ _ hb).1
              have s5 := List.sizeOf_lt_of_mem (lookupName_some _ _ _ hc).1
              have s3 := NodeDesc.sizeOf_children_lt A
              have s4 := NodeDesc.sizeOf_children_lt B
              have s6 := NodeDesc.sizeOf_children_lt C
              omega
            rw [ih (sizeOf a + sizeOf b + sizeOf c) (by omega) a b c (le_refl _)
              (WFNames_of_lookup nA ha) (WFNames_of_lookup nB hb)
              (WFNames_of_lookup nC hc)
              (WFAttrs_of_lookup aA ha) (WFAttrs_of_lookup aB hb)
              (WFAttrs_of_lookup aC hc)]

theorem parse_as_combT (d : XMLNode) (t : NodeDesc) :
    parseNode d t = combineNodesT t (parseNode d emptyRoot) := by
  rw [combT_parseNode d t emptyRoot WFNames_emptyRoot, combT_emptyRoot]

theorem generateGoCode_congr (pn : String) (A B : NodeDesc) (h : sortNode A = sortNode B) :
    generateGoCode pn A = generateGoCode pn B := by
  rw [generateGoCode, generateGoCode, copyNode_id, copyNode_id, h]

theorem sortNode_parseNode_congr (d : XMLNode) (A B : NodeDesc)
    (hA : WFNames A) (hB : WFNames B) (aA : WFAttrs A) (aB : WFAttrs B)
    (h : sortNode A = sortNode B) :
    sortNode (parseNode d A) = sortNode (parseNode d B) := by
  rw [parse_as_combT d A, parse_as_combT d B]
  exact sortNode_combT_congr (sizeOf A + sizeOf (parseNode d emptyRoot))
    A (parseNode d emptyRoot) B (parseNode d emptyRoot) (le_refl _)
    hA (WFNames_parseNode d emptyRoot WFNames_emptyRoot)
    hB (WFNames_parseNode d emptyRoot WFNames_emptyRoot)
    aA (WFAttrs_parseNode d emptyRoot WFAttrs_emptyRoot)
    aB (WFAttrs_parseNode d emptyRoot WFAttrs_emptyRoot)
    h rfl

theorem sortNode_parse_swap (x y : XMLNode) (t : NodeDesc)
    (ht : WFNames t) (hat : WFAttrs t) :
    sortNode (parseNode y (parseNode x t)) = sortNode (parseNode x (parseNode y t)) := by
  have wPx : WFNames (parseNode x emptyRoot) :=
    WFNames_parseNode x emptyRoot WFNames_emptyRoot
  have wPy : WFNames (parseNode y emptyRoot) :=
    WFNames_parseNode y emptyRoot WFNames_emptyRoot
  have aPx : WFAttrs (parseNode x emptyRoot) :=
    WFAttrs_parseNode x emptyRoot WFAttrs_emptyRoot
  have aPy : WFAttrs (parseNode y emptyRoot) :=
    WFAttrs_parseNode y emptyRoot WFAttrs_emptyRoot
  have hname : (parseNode x emptyRoot).name = (parseNode y emptyRoot).name := by
    rw [parseNode_name, parseNode_name]
  calc sortNode (parseNode y (parseNode x t))
      = sortNode (combineNodesT (combineNodesT t (parseNode x emptyRoot))
          (parseNode y emptyRoot)) := by
        rw [parse_as_combT y (parseNode x t), parse_as_combT x t]
    _ = sortNode (combineNodesT t (combineNodesT (parseNode x emptyRoot)
          (parseNode y emptyRoot))) :=
        sortNode_combT_assoc _ t (parseNode x emptyRoot) (parseNode y emptyRoot)
          (le_refl _) ht wPx wPy hat aPx aPy
    _ = sortNode (combineNodesT t (combineNodesT (parseNode y emptyRoot)
          (parseNode x emptyRoot))) :=
        sortNode_combT_congr _ t
          (combineNodesT (parseNode x emptyRoot) (parseNode y emptyRoot)) t
          (combineNodesT (parseNode y emptyRoot) (parseNode x emptyRoot))
          (le_refl _) ht (WFNames_combineNodesT _ _ wPx wPy)
          ht (WFNames_combineNodesT _ _ wPy wPx)
          hat (WFAttrs_combineNodesT _ _ aPx aPy)
          hat (WFAttrs_combineNodesT _ _ aPy aPx)
          rfl (sortNode_combT_comm _ (parseNode x emptyRoot) (parseNode y emptyRoot)
            (le_refl _) hname wPx wPy aPx aPy)
    _ = sortNode (combineNodesT (combineNodesT t (parseNode y emptyRoot))
          (parseNode x emptyRoot)) :=
        (sortNode_combT_assoc _ t (parseNode y emptyRoot) (parseNode x emptyRoot)
          (le_refl _) ht wPy wPx hat aPy aPx).symm
    _ = sortNode (parseNode x (parseNode y t)) := by
        rw [parse_as_combT x (parseNode y t), parse_as_combT y t]

theorem sortNode_ingestAll_congr (ds : List XMLNode) : ∀ A B : NodeDesc,
    WFNames A → WFNames B → WFAttrs A → WFAttrs B →
    sortNode A = sortNode B →
    sortNode (ingestAll A ds) = sortNode (ingestAll B ds) := by
  induction ds with
  | nil => intro A B _ _ _ _ h; exact h
  | cons d r ihd =>
    intro A B hA hB aA aB h
    have e1 : ingestAll A (d :: r) = ingestAll (parseNode d A) r := by
      simp [ingestAll, ingest]
    have e2 : ingestAll B (d :: r) = ingestAll (parseNode d B) r := by
      simp [ingestAll, ingest]
    rw [e1, e2]
    exact ihd (parseNode d A) (parseNode d B)
      (WFNames_parseNode d A hA) (WFNames_parseNode d B hB)
      (WFAttrs_parseNode d A aA) (WFAttrs_parseNode d B aB)
      (sortNode_parseNode_congr d A B hA hB aA aB h)

theorem sortNode_ingestAll_perm (ds1 ds2 : List XMLNode) (hp : ds1.Perm ds2) :
    ∀ t : NodeDesc, WFNames t → WFAttrs t →
    sortNode (ingestAll t ds1) = sortNode (ingestAll t ds2) := by
  induction hp with
  | nil => intro t _ _; rfl
  | cons d h ih =>
    intro t ht hat
    rename_i l1 l2
    have e1 : ingestAll t (d :: l1) = ingestAll (parseNode d t) l1 := by
      simp [ingestAll, ingest]
    have e2 : ingestAll t (d :: l2) = ingestAll (parseNode d t) l2 := by
      simp [ingestAll, ingest]
    rw [e1, e2]
    exact ih (parseNode d t) (WFNames_parseNode d t ht) (WFAttrs_parseNode d t hat)
  | swap x y l =>
    intro t ht hat
    have e1 : ingestAll t (y :: x :: l) = ingestAll (parseNode x (parseNode y t)) l := by
      simp [ingestAll, ingest]
    have e2 : ingestAll t (x :: y :: l) = ingestAll (parseNode y (parseNode x t)) l := by
      simp [ingestAll, ingest]
    rw [e1, e2]
    exact sortNode_ingestAll_congr l (parseNode x (parseNode y t))
      (parseNode y (parseNode x t))
      (WFNames_parseNode x _ (WFNames_parseNode y t ht))
      (WFNames_parseNode y _ (WFNames_parseNode x t ht))
      (WFAttrs_parseNode x _ (WFAttrs_parseNode y t hat))
      (WFAttrs_parseNode y _ (WFAttrs_parseNode x t hat))
      (sortNode_parse_swap y x t ht hat)
  | trans h1 h2 ih1 ih2 =>
    intro t ht hat
    exact (ih1 t ht hat).trans (ih2 t ht hat)

/-- C5: generation is deterministic. Emission is a pure function of the
schema tree (so two runs over the same tree are byte-identical by
reflexivity), and ingesting the same multiset of sample documents in any
order — or splitting them between two converters and merging in either
order — produces byte-identical generated output. -/
theorem generated_output_deterministic (pn : String) (ds1 ds2 : List XMLNode)
    (hp : ds1.Perm ds2) :
    generateGoCode pn (ingestAll emptyRoot ds1) =
      generateGoCode pn (ingestAll emptyRoot ds2) ∧
    ∀ m1 m2, Combine (ingestAll emptyRoot ds1) (ingestAll emptyRoot ds2) = some m1 →
      Combine (ingestAll emptyRoot ds2) (ingestAll emptyRoot ds1) = some m2 →
      generateGoCode pn m1 = generateGoCode pn m2 := by
  constructor
  · exact generateGoCode_congr pn _ _
      (sortNode_ingestAll_perm ds1 ds2 hp emptyRoot WFNames_emptyRoot WFAttrs_emptyRoot)
  · intro m1 m2 h1 h2
    have c1 : Combine (ingestAll emptyRoot ds1) (ingestAll emptyRoot ds2) =
        some (ingestAll emptyRoot (ds1 ++ ds2)) := by
      rw [Combine, copyNode_id, copyNode_id,
        combineNodes_eq_total _ _ (by rw [ingestAll_name, ingestAll_name]),
        combT_ingestAll ds2 _ emptyRoot WFNames_emptyRoot, combT_emptyRoot,
        ingestAll_append]
    have c2 : Combine (ingestAll emptyRoot ds2) (ingestAll emptyRoot ds1) =
        some (ingestAll emptyRoot (ds2 ++ ds1)) := by
      rw [Combine, copyNode_id, copyNode_id,
        combineNodes_eq_total _ _ (by rw [ingestAll_name, ingestAll_name]),
        combT_ingestAll ds1 _ emptyRoot WFNames_emptyRoot, combT_emptyRoot,
        ingestAll_append]
    rw [c1] at h1
    rw [c2] at h2
    injection h1 with h1
    injection h2 with h2
    rw [← h1, ← h2]
    exact generateGoCode_congr pn _ _
      (sortNode_ingestAll_perm (ds1 ++ ds2) (ds2 ++ ds1) List.perm_append_comm
        emptyRoot WFNames_emptyRoot WFAttrs_emptyRoot)

/-- Witness for C5 at two concrete two-document sequences in opposite order. -/
theorem generated_output_deterministic_witness :
    generateGoCode "main" (ingestAll emptyRoot
        [XMLNode.mk "a" [] "" [], XMLNode.mk "b" [] "" []]) =
      generateGoCode "main" (ingestAll emptyRoot
        [XMLNode.mk "b" [] "" [], XMLNode.mk "a" [] "" []]) :=
  (generated_output_deterministic "main"
    [XMLNode.mk "a" [] "" [], XMLNode.mk "b" [] "" []]
    [XMLNode.mk "b" [] "" [], XMLNode.mk "a" [] "" []]
    (List.Perm.swap (XMLNode.mk "b" [] "" []) (XMLNode.mk "a" [] "" []) [])).1

/-- Split a character sequence at the newlines (the lines of the emitted Go
text). -/
def splitNl : List Char → List (List Char)
  | [] => [[]]
  | c :: r =>
    match splitNl r with
    | [] => [[c]]
    | l :: t => if c = '\n' then [] :: l :: t else (c :: l) :: t

/-- The field identifiers of the emitted lines: each line starting with a tab
declares one struct field whose identifier extends to the first space. -/
def tabIdentsL : List (List Char) → List String
  | [] => []
  | l :: ls =>
    match l with
    | '\t' :: r => String.mk (r.takeWhile (fun c => !(c == ' '))) :: tabIdentsL ls
    | _ => tabIdentsL ls

def tabIdents (s : String) : List String := tabIdentsL (splitNl s.toList)

/-- The type names of the emitted record definitions: each line of the form
`type <name> struct ...` declares one. -/
def typeHeaders (s : String) : List String :=
  (splitNl s.toList).filterMap (fun l =>
    if l.take 5 = "type ".toList then
      some (String.mk ((l.drop 5).takeWhile (fun c => !(c == ' '))))
    else none)

/-- The sequence of identifiers assigned by successive uniqueGoIdent calls
over a name sequence, threading the seen set exactly as generate does. -/
def identChain (seen : List String) : List String → List String
  | [] => []
  | nm :: r => (uniqueGoIdent seen nm).1 :: identChain (uniqueGoIdent seen nm).2 r

/-- The seen set left behind by a uniqueGoIdent chain. -/
def chainSeen (seen : List String) : List String → List String
  | [] => seen
  | nm :: r => chainSeen (uniqueGoIdent seen nm).2 r

/-- The record body generate emits for a node: the Content line, the attribute
lines and the child-field lines (the fixed XMLName line of the top-level
records, which is not freshened, precedes this text in generate). -/
def bodyText (anc : List String) (kt : List (NodeDesc × String)) (n : NodeDesc) : String :=
  match n with
  | .mk nm _ h ats kids =>
    let nodeName := qualName anc nm
    let cl :=
      if h then
        let p := uniqueGoIdent [] "Content"
        ("\t" ++ p.1 ++ " string `xml:\",innerxml\"`\n", p.2)
      else ("", ([] : List String))
    let al := attrLoop cl.2 ats
    let cf := childLoop nodeName al.2 kt kids
    cl.1 ++ al.1 ++ cf.1

/-- A character that can appear in an assigned field identifier: not the
space that ends the identifier column and not a line break. -/
def cleanChar (c : Char) : Bool := !(c == ' ') && !(c == '\n')

theorem freshen_aux : ∀ (fuel : Nat) (seen : List String) (id : String)
    (pre : List String), pre.Nodup → (∀ p ∈ pre, p ∈ seen) →
    (∀ p ∈ pre, p.length < id.length) →
    seen.length + 1 ≤ pre.length + fuel →
    freshen fuel seen id ∉ seen := by
  intro fuel
  induction fuel with
  | zero =>
    intro seen id pre hnd hsub hlen hcnt
    exfalso
    have hle := (List.subperm_of_subset hnd hsub).length_le
    omega
  | succ f ihf =>
    intro seen id pre hnd hsub hlen hcnt
    have e : freshen (f + 1) seen id =
        if id ∈ seen then freshen f seen (id ++ "_") else id := rfl
    rw [e]
    by_cases hmem : id ∈ seen
    · rw [if_pos hmem]
      refine ihf seen (id ++ "_") (id :: pre) ?_ ?_ ?_ ?_
      · exact List.nodup_cons.mpr ⟨fun hm => lt_irrefl _ (hlen id hm), hnd⟩
      · intro p hp
        rcases List.mem_cons.mp hp with rfl | hp
        · exact hmem
        · exact hsub p hp
      · intro p hp
        have hl1 : (id ++ "_").length = id.length + 1 := by
          rw [String.length_append]
          rfl
        rcases List.mem_cons.mp hp with rfl | hp
        · omega
        · have := hlen p hp
          omega
      · simp only [List.length_cons]
        omega
    · rw [if_neg hmem]
      exact hmem

theorem freshen_not_mem (seen : List String) (id : String) :
    freshen (seen.length + 1) seen id ∉ seen :=
  freshen_aux (seen.length + 1) seen id [] List.nodup_nil (by simp) (by simp) (by simp)

theorem uniqueGoIdent_fst_not_mem (seen : List String) (nm : String) :
    (uniqueGoIdent seen nm).1 ∉ seen :=
  freshen_not_mem seen (goIdent nm)

theorem uniqueGoIdent_snd (seen : List String) (nm : String) :
    (uniqueGoIdent seen nm).2 = seen ++ [(uniqueGoIdent seen nm).1] := rfl

theorem identChain_nodup_aux : ∀ (names : List String) (seen : List String),
    seen.Nodup → (seen ++ identChain seen names).Nodup := by
  intro names
  induction names with
  | nil =>
    intro seen hnd
    simpa [identChain] using hnd
  | cons nm r ih =>
    intro seen hnd
    have h2 : (seen ++ [(uniqueGoIdent seen nm).1]).Nodup := by
      rw [List.nodup_append]
      exact ⟨hnd, List.nodup_singleton _,
        fun x hx hy => (List.mem_singleton.mp hy ▸ uniqueGoIdent_fst_not_mem seen nm)
          (List.mem_singleton.mp hy ▸ hx)⟩
    have ih2 := ih (uniqueGoIdent seen nm).2 (by rw [uniqueGoIdent_snd]; exact h2)
    rw [show identChain seen (nm :: r) =
      (uniqueGoIdent seen nm).1 :: identChain (uniqueGoIdent seen nm).2 r from rfl]
    rw [uniqueGoIdent_snd] at ih2
    simpa [List.append_assoc] using ih2

theorem identChain_nodup (names : List String) : (identChain [] names).Nodup := by
  have h := identChain_nodup_aux names [] List.nodup_nil
  simpa using h

theorem toNat_char_ofNat_small (m : Nat) (h : m < 55296) : (Char.ofNat m).toNat = m := by
  have hv : m.isValidChar := Or.inl h
  rw [Char.ofNat, dif_pos hv]
  rfl

theorem goodChar_clean (c : Char) (h : (c.isAlpha || c.isDigit || c == '_') = true) :
    cleanChar c = true := by
  by_cases h1 : c = ' '
  · subst h1
    exact absurd h (by decide)
  by_cases h2 : c = '\n'
  · subst h2
    exact absurd h (by decide)
  simp [cleanChar, h1, h2]

theorem toUpper_clean (c : Char) (h : (c.isAlpha || c.isDigit || c == '_') = true) :
    cleanChar c.toUpper = true := by
  show cleanChar (if c.toNat ≥ 97 ∧ c.toNat ≤ 122 then Char.ofNat (c.toNat - 32) else c) = true
  by_cases hc : c.toNat ≥ 97 ∧ c.toNat ≤ 122
  · rw [if_pos hc]
    have ht := toNat_char_ofNat_small (c.toNat - 32) (by omega)
    have hne1 : ¬ Char.ofNat (c.toNat - 32) = ' ' := by
      intro he
      have h2 := congrArg Char.toNat he
      rw [ht] at h2
      have h3 : (' ' : Char).toNat = 32 := rfl
      omega
    have hne2 : ¬ Char.ofNat (c.toNat - 32) = '\n' := by
      intro he
      have h2 := congrArg Char.toNat he
      rw [ht] at h2
      have h3 : ('\n' : Char).toNat = 10 := rfl
      omega
    simp [cleanChar, hne1, hne2]
  · rw [if_neg hc]
    exact goodChar_clean c h

theorem str_toList_append (a b : String) : (a ++ b).toList = a.toList ++ b.toList := rfl

theorem goIdent_eq (s : String) : goIdent s =
    match (s.toList.filter (fun r => r.isAlpha || r.isDigit || r == '_')).dropWhile
      (fun c => c.isDigit) with
    | [] => ""
    | c :: rest => String.mk (c.toUpper :: rest) := rfl

theorem goIdent_clean (s : String) : ∀ c ∈ (goIdent s).toList, cleanChar c = true := by
  intro c hc
  rw [goIdent_eq] at hc
  cases e : ((s.toList.filter (fun r => r.isAlpha || r.isDigit || r == '_')).dropWhile
      (fun c => c.isDigit)) with
  | nil =>
    rw [e] at hc
    exact absurd hc (List.not_mem_nil c)
  | cons c0 rest =>
    rw [e] at hc
    have hc' : c ∈ c0.toUpper :: rest := hc
    rcases List.mem_cons.mp hc' with rfl | hcr
    · have hc0 : c0 ∈ s.toList.filter (fun r => r.isAlpha || r.isDigit || r == '_') :=
        (List.dropWhile_suffix _).subset (e ▸ List.mem_cons_self _ _)
      exact toUpper_clean c0 (by simpa using List.of_mem_filter hc0)
    · have hcr2 : c ∈ s.toList.filter (fun r => r.isAlpha || r.isDigit || r == '_') :=
        (List.dropWhile_suffix _).subset (e ▸ List.mem_cons_of_mem _ hcr)
      exact goodChar_clean c (by simpa using List.of_mem_filter hcr2)

theorem freshen_clean (fuel : Nat) (seen : List String) (id : String)
    (h : ∀ c ∈ id.toList, cleanChar c = true) :
    ∀ c ∈ (freshen fuel seen id).toList, cleanChar c = true := by
  induction fuel generalizing id with
  | zero => exact h
  | succ f ih =>
    show ∀ c ∈ (if id ∈ seen then freshen f seen (id ++ "_") else id).toList, _
    by_cases hm : id ∈ seen
    · rw [if_pos hm]
      refine ih (id ++ "_") ?_
      intro c hc
      have he : (id ++ "_").toList = id.toList ++ ['_'] := rfl
      rw [he] at hc
      rcases List.mem_append.mp hc with hc | hc
      · exact h c hc
      · rw [List.mem_singleton.mp hc]
        decide
    · rw [if_neg hm]
      exact h

theorem uniqueGoIdent_clean (seen : List String) (nm : String) :
    ∀ c ∈ (uniqueGoIdent seen nm).1.toList, cleanChar c = true :=
  freshen_clean _ seen (goIdent nm) (goIdent_clean nm)

theorem qualName_clean (anc : List String) (nm : String) :
    ∀ c ∈ (qualName anc nm).toList, cleanChar c = true := by
  induction anc with
  | nil => exact goIdent_clean nm
  | cons p r ih =>
    intro c hc
    have he : (qualName (p :: r) nm).toList =
        (goIdent p).toList ++ '_' :: (qualName r nm).toList := by
      rw [show qualName (p :: r) nm = goIdent p ++ "_" ++ qualName r nm from rfl,
        str_toList_append, str_toList_append]
      simp [List.append_assoc, show ("_" : String).toList = ['_'] from rfl]
    rw [he] at hc
    rcases List.mem_append.mp hc with hc | hc
    · exact goIdent_clean p c hc
    · rcases List.mem_cons.mp hc with rfl | hc
      · decide
      · exact ih c hc

theorem splitNl_ne_nil (xs : List Char) : splitNl xs ≠ [] := by
  induction xs with
  | nil => simp [splitNl]
  | cons c r ih =>
    cases e : splitNl r with
    | nil => exact absurd e ih
    | cons l t => by_cases hc : c = '\n' <;> simp [splitNl, e, hc]

theorem splitNl_line (l : List Char) (r : List Char) (hl : ∀ c ∈ l, ¬ c = '\n') :
    splitNl (l ++ '\n' :: r) = l :: splitNl r := by
  induction l with
  | nil =>
    cases e : splitNl r with
    | nil => exact absurd e (splitNl_ne_nil r)
    | cons h t => simp [splitNl, e]
  | cons c cr ih =>
    have hc : ¬ c = '\n' := hl c (List.mem_cons_self c cr)
    have e := ih (fun x hx => hl x (List.mem_cons_of_mem c hx))
    show splitNl (c :: (cr ++ '\n' :: r)) = (c :: cr) :: splitNl r
    rw [show splitNl (c :: (cr ++ '\n' :: r)) =
      (match splitNl (cr ++ '\n' :: r) with
       | [] => [[c]]
       | l :: t => if c = '\n' then [] :: l :: t else (c :: l) :: t) from rfl, e]
    simp [hc]

theorem tabIdentsL_cons_tab (rest : List Char) (ls : List (List Char)) :
    tabIdentsL (('\t' :: rest) :: ls) =
      String.mk (rest.takeWhile (fun c => !(c == ' '))) :: tabIdentsL ls := rfl

theorem takeWhile_to_space (xs ys : List Char) (h : ∀ c ∈ xs, ¬ c = ' ') :
    (xs ++ ' ' :: ys).takeWhile (fun c => !(c == ' ')) = xs := by
  induction xs with
  | nil => simp
  | cons c cr ih =>
    have hc : ¬ c = ' ' := h c (List.mem_cons_self c cr)
    simp only [List.cons_append, List.takeWhile_cons]
    rw [if_pos (by simp [hc]), ih (fun x hx => h x (List.mem_cons_of_mem c hx))]

theorem string_mk_toList (s : String) : String.mk s.toList = s := rfl

theorem tabIdents_line_chars (id : String) (taill restl : List Char)
    (hid : ∀ c ∈ id.toList, cleanChar c = true)
    (htail : ∀ c ∈ taill, ¬ c = '\n') :
    tabIdentsL (splitNl ('\t' :: (id.toList ++ ' ' :: (taill ++ '\n' :: restl)))) =
      id :: tabIdentsL (splitNl restl) := by
  have hid_sp : ∀ c ∈ id.toList, ¬ c = ' ' := by
    intro c hc he
    have := hid c hc
    rw [he] at this
    exact absurd this (by decide)
  have hid_nl : ∀ c ∈ id.toList, ¬ c = '\n' := by
    intro c hc he
    have := hid c hc
    rw [he] at this
    exact absurd this (by decide)
  have e1 : '\t' :: (id.toList ++ ' ' :: (taill ++ '\n' :: restl)) =
      ('\t' :: (id.toList ++ ' ' :: taill)) ++ '\n' :: restl := by
    simp [List.append_assoc]
  rw [e1, splitNl_line]
  · rw [tabIdentsL_cons_tab, takeWhile_to_space id.toList taill hid_sp, string_mk_toList]
  · intro c hc
    rcases List.mem_cons.mp hc with rfl | hc
    · decide
    rcases List.mem_append.mp hc with hc | hc
    · exact hid_nl c hc
    rcases List.mem_cons.mp hc with rfl | hc
    · decide
    · exact htail c hc

theorem chainSeen_eq : ∀ (names : List String) (seen : List String),
    chainSeen seen names = seen ++ identChain seen names := by
  intro names
  induction names with
  | nil => intro seen; simp [chainSeen, identChain]
  | cons nm r ih =>
    intro seen
    rw [show chainSeen seen (nm :: r) = chainSeen (uniqueGoIdent seen nm).2 r from rfl,
      show identChain seen (nm :: r) =
        (uniqueGoIdent seen nm).1 :: identChain (uniqueGoIdent seen nm).2 r from rfl,
      ih, uniqueGoIdent_snd]
    simp [List.append_assoc]

theorem identChain_append : ∀ (l1 l2 seen : List String),
    identChain seen (l1 ++ l2) = identChain seen l1 ++ identChain (chainSeen seen l1) l2 := by
  intro l1
  induction l1 with
  | nil => intro l2 seen; rfl
  | cons nm r ih =>
    intro l2 seen
    rw [List.cons_append,
      show identChain seen (nm :: (r ++ l2)) =
        (uniqueGoIdent seen nm).1 :: identChain (uniqueGoIdent seen nm).2 (r ++ l2) from rfl,
      ih l2 (uniqueGoIdent seen nm).2]
    rfl

theorem attrLoop_tabIdents : ∀ (ats : List String) (seen : List String) (rest : List Char),
    (∀ a ∈ ats, ∀ c ∈ a.toList, ¬ c = '\n') →
    tabIdentsL (splitNl ((attrLoop seen ats).1.toList ++ rest)) =
      identChain seen ats ++ tabIdentsL (splitNl rest) := by
  intro ats
  induction ats with
  | nil =>
    intro seen rest h
    rfl
  | cons a r ih =>
    intro seen rest hats
    have e1 : (attrLoop seen (a :: r)).1 =
        "\t" ++ (uniqueGoIdent seen a).1 ++ " string `xml:\"" ++ a ++ ",attr\"`\n" ++
          (attrLoop (uniqueGoIdent seen a).2 r).1 := by
      simp [attrLoop]
    have e2 : ((attrLoop seen (a :: r)).1.toList ++ rest) =
        '\t' :: ((uniqueGoIdent seen a).1.toList ++ ' ' ::
          (("string `xml:\"".toList ++ (a.toList ++ ",attr\"`".toList)) ++
            '\n' :: ((attrLoop (uniqueGoIdent seen a).2 r).1.toList ++ rest))) := by
      rw [e1]
      simp only [str_toList_append, List.append_assoc, List.cons_append,
        List.singleton_append, List.nil_append,
        show ("\t" : String).toList = ['\t'] from rfl,
        show (" string `xml:\"" : String).toList = ' ' :: "string `xml:\"".toList from rfl,
        show (",attr\"`\n" : String).toList = ",attr\"`".toList ++ ['\n'] from rfl]
    have htail : ∀ c ∈ ("string `xml:\"".toList ++ (a.toList ++ ",attr\"`".toList)),
        ¬ c = '\n' := by
      intro c hc
      rcases List.mem_append.mp hc with hc | hc
      · intro he
        subst he
        revert hc
        decide
      rcases List.mem_append.mp hc with hc | hc
      · exact hats a (List.mem_cons_self a r) c hc
      · intro he
        subst he
        revert hc
        decide
    rw [e2, tabIdents_line_chars _ _ _ (uniqueGoIdent_clean seen a) htail,
      ih (uniqueGoIdent seen a).2 rest (fun x hx => hats x (List.mem_cons_of_mem a hx))]
    rfl

theorem getKnownType_some_mem (kt : List (NodeDesc × String)) (n : NodeDesc) (tn : String)
    (hk : getKnownType kt n = some tn) : ∃ p ∈ kt, p.2 = tn := by
  rw [getKnownType] at hk
  cases hf : kt.find? (fun q => sameStructure n q.1) with
  | none =>
    rw [hf] at hk
    exact absurd hk (by simp)
  | some p =>
    rw [hf] at hk
    refine ⟨p, List.mem_of_find?_eq_some hf, ?_⟩
    simpa using hk

theorem childLoop_tabIdents : ∀ (kids : List NodeDesc) (nodeName : String)
    (seen : List String) (kt : List (NodeDesc × String)) (rest : List Char),
    (∀ c ∈ nodeName.toList, ¬ c = '\n') →
    (∀ p ∈ kt, ∀ c ∈ p.2.toList, ¬ c = '\n') →
    (∀ k ∈ kids, ∀ c ∈ k.name.toList, ¬ c = '\n') →
    tabIdentsL (splitNl ((childLoop nodeName seen kt kids).1.toList ++ rest)) =
      identChain seen (kids.map NodeDesc.name) ++ tabIdentsL (splitNl rest) := by
  intro kids
  induction kids with
  | nil =>
    intro nodeName seen kt rest _ _ _
    rfl
  | cons child restk ih =>
    intro nodeName seen kt rest hnn hkt hkids
    have hslice : ∀ c ∈ (if child.isArray then "[]" else "").toList, ¬ c = '\n' := by
      by_cases hb : child.isArray <;> simp [hb] <;> decide
    have hname : ∀ c ∈ child.name.toList, ¬ c = '\n' :=
      hkids child (List.mem_cons_self child restk)
    cases hk : getKnownType kt child with
    | some typeName =>
      have htn : ∀ c ∈ typeName.toList, ¬ c = '\n' := by
        obtain ⟨p, hp, he⟩ := getKnownType_some_mem kt child typeName hk
        exact he ▸ hkt p hp
      have e1 : (childLoop nodeName seen kt (child :: restk)).1 =
          "\t" ++ (uniqueGoIdent seen child.name).1 ++ " " ++
            (if child.isArray then "[]" else "") ++ typeName ++ " `xml:\"" ++
            child.name ++ "\"`\n" ++
            (childLoop nodeName (uniqueGoIdent seen child.name).2 kt restk).1 := by
        simp [childLoop, hk]
      have e2 : ((childLoop nodeName seen kt (child :: restk)).1.toList ++ rest) =
          '\t' :: ((uniqueGoIdent seen child.name).1.toList ++ ' ' ::
            (((if child.isArray then "[]" else "").toList ++ (typeName.toList ++
              (" `xml:\"".toList ++ (child.name.toList ++ "\"`".toList)))) ++
              '\n' :: ((childLoop nodeName (uniqueGoIdent seen child.name).2 kt
                restk).1.toList ++ rest))) := by
        rw [e1]
        simp only [str_toList_append, List.append_assoc, List.cons_append,
          List.singleton_append, List.nil_append,
          show ("\t" : String).toList = ['\t'] from rfl,
          show (" " : String).toList = [' '] from rfl,
          show ("\"`\n" : String).toList = "\"`".toList ++ ['\n'] from rfl]
      have htail : ∀ c ∈ ((if child.isArray then "[]" else "").toList ++ (typeName.toList ++
          (" `xml:\"".toList ++ (child.name.toList ++ "\"`".toList)))), ¬ c = '\n' := by
        intro c hc
        rcases List.mem_append.mp hc with hc | hc
        · exact hslice c hc
        rcases List.mem_append.mp hc with hc | hc
        · exact htn c hc
        rcases List.mem_append.mp hc with hc | hc
        · intro he
          subst he
          revert hc
          decide
        rcases List.mem_append.mp hc with hc | hc
        · exact hname c hc
        · intro he
          subst he
          revert hc
          decide
      rw [e2, tabIdents_line_chars _ _ _ (uniqueGoIdent_clean seen child.name) htail,
        ih nodeName (uniqueGoIdent seen child.name).2 kt rest hnn hkt
          (fun x hx => hkids x (List.mem_cons_of_mem child hx))]
      rfl
    | none =>
      have htn : ∀ c ∈ (nodeName ++ "_" ++ goIdent child.name).toList, ¬ c = '\n' := by
        intro c hc
        rw [str_toList_append, str_toList_append] at hc
        rcases List.mem_append.mp hc with hc | hc
        · rcases List.mem_append.mp hc with hc | hc
          · exact hnn c hc
          · intro he
            subst he
            revert hc
            decide
        · intro he
          have h2 := goIdent_clean child.name c hc
          rw [he] at h2
          exact absurd h2 (by decide)
      have hkt2 : ∀ p ∈ kt ++ [(child, nodeName ++ "_" ++ goIdent child.name)],
          ∀ c ∈ p.2.toList, ¬ c = '\n' := by
        intro p hp
        rcases List.mem_append.mp hp with hp | hp
        · exact hkt p hp
        · rw [List.mem_singleton.mp hp]
          exact htn
      have e1 : (childLoop nodeName seen kt (child :: restk)).1 =
          "\t" ++ (uniqueGoIdent seen child.name).1 ++ " " ++
            (if child.isArray then "[]" else "") ++ (nodeName ++ "_" ++ goIdent child.name) ++
            " `xml:\"" ++ child.name ++ "\"`\n" ++
            (childLoop nodeName (uniqueGoIdent seen child.name).2
              (kt ++ [(child, nodeName ++ "_" ++ goIdent child.name)]) restk).1 := by
        simp [childLoop, hk]
      have e2 : ((childLoop nodeName seen kt (child :: restk)).1.toList ++ rest) =
          '\t' :: ((uniqueGoIdent seen child.name).1.toList ++ ' ' ::
            (((if child.isArray then "[]" else "").toList ++
              ((nodeName ++ "_" ++ goIdent child.name).toList ++
              (" `xml:\"".toList ++ (child.name.toList ++ "\"`".toList)))) ++
              '\n' :: ((childLoop nodeName (uniqueGoIdent seen child.name).2
                (kt ++ [(child, nodeName ++ "_" ++ goIdent child.name)])
                restk).1.toList ++ rest))) := by
        rw [e1]
        simp only [str_toList_append, List.append_assoc, List.cons_append,
          List.singleton_append, List.nil_append,
          show ("\t" : String).toList = ['\t'] from rfl,
          show (" " : String).toList = [' '] from rfl,
          show ("\"`\n" : String).toList = "\"`".toList ++ ['\n'] from rfl]
      have htail : ∀ c ∈ ((if child.isArray then "[]" else "").toList ++
          ((nodeName ++ "_" ++ goIdent child.name).toList ++
          (" `xml:\"".toList ++ (child.name.toList ++ "\"`".toList)))), ¬ c = '\n' := by
        intro c hc
        rcases List.mem_append.mp hc with hc | hc
        · exact hslice c hc
        rcases List.mem_append.mp hc with hc | hc
        · exact htn c hc
        rcases List.mem_append.mp hc with hc | hc
        · intro he
          subst he
          revert hc
          decide
        rcases List.mem_append.mp hc with hc | hc
        · exact hname c hc
        · intro he
          subst he
          revert hc
          decide
      rw [e2, tabIdents_line_chars _ _ _ (uniqueGoIdent_clean seen child.name) htail,
        ih nodeName (uniqueGoIdent seen child.name).2
          (kt ++ [(child, nodeName ++ "_" ++ goIdent child.name)]) rest hnn hkt2
          (fun x hx => hkids x (List.mem_cons_of_mem child hx))]
      rfl

theorem attrLoop_snd : ∀ (ats : List String) (seen : List String),
    (attrLoop seen ats).2 = chainSeen seen ats := by
  intro ats
  induction ats with
  | nil => intro seen; rfl
  | cons a r ih =>
    intro seen
    rw [show (attrLoop seen (a :: r)).2 = (attrLoop (uniqueGoIdent seen a).2 r).2 from by
      simp [attrLoop]]
    rw [ih (uniqueGoIdent seen a).2]
    rfl

theorem bodyText_tabIdents (anc : List String) (kt : List (NodeDesc × String))
    (nm : String) (ia h : Bool) (ats : List String) (kids : List NodeDesc)
    (hats : ∀ a ∈ ats, ∀ c ∈ a.toList, ¬ c = '\n')
    (hkids : ∀ k ∈ kids, ∀ c ∈ k.name.toList, ¬ c = '\n')
    (hkt : ∀ p ∈ kt, ∀ c ∈ p.2.toList, ¬ c = '\n') :
    tabIdents (bodyText anc kt (NodeDesc.mk nm ia h ats kids)) =
      identChain [] ((if h then ["Content"] else []) ++ ats ++ kids.map NodeDesc.name) := by
  have hnn : ∀ c ∈ (qualName anc nm).toList, ¬ c = '\n' := by
    intro c hc he
    have h2 := qualName_clean anc nm c hc
    rw [he] at h2
    exact absurd h2 (by decide)
  cases h with
  | false =>
    have e1 : bodyText anc kt (NodeDesc.mk nm ia false ats kids) =
        (attrLoop [] ats).1 ++
          (childLoop (qualName anc nm) (attrLoop [] ats).2 kt kids).1 := by
      simp [bodyText]
    rw [tabIdents, e1, str_toList_append]
    rw [show (childLoop (qualName anc nm) (attrLoop [] ats).2 kt kids).1.toList =
      (childLoop (qualName anc nm) (attrLoop [] ats).2 kt kids).1.toList ++ []
      from (List.append_nil _).symm]
    rw [attrLoop_tabIdents ats [] _ hats,
      childLoop_tabIdents kids (qualName anc nm) _ kt [] hnn hkt hkids,
      attrLoop_snd]
    simp [identChain_append, show tabIdentsL (splitNl []) = [] from rfl]
  | true =>
    have e1 : bodyText anc kt (NodeDesc.mk nm ia true ats kids) =
        "\t" ++ (uniqueGoIdent [] "Content").1 ++ " string `xml:\",innerxml\"`\n" ++
          (attrLoop (uniqueGoIdent [] "Content").2 ats).1 ++
          (childLoop (qualName anc nm) (attrLoop (uniqueGoIdent [] "Content").2 ats).2
            kt kids).1 := by
      simp [bodyText, String.append_assoc]
    have e2 : (bodyText anc kt (NodeDesc.mk nm ia true ats kids)).toList =
        '\t' :: ((uniqueGoIdent [] "Content").1.toList ++ ' ' ::
          ("string `xml:\",innerxml\"`".toList ++ '\n' ::
            ((attrLoop (uniqueGoIdent [] "Content").2 ats).1.toList ++
              ((childLoop (qualName anc nm)
                (attrLoop (uniqueGoIdent [] "Content").2 ats).2 kt kids).1.toList ++ [])))) := by
      rw [e1]
      simp only [str_toList_append, List.append_assoc, List.cons_append,
        List.singleton_append, List.nil_append, List.append_nil,
        show ("\t" : String).toList = ['\t'] from rfl,
        show (" string `xml:\",innerxml\"`\n" : String).toList =
          ' ' :: ("string `xml:\",innerxml\"`".toList ++ ['\n']) from rfl]
    rw [tabIdents, e2,
      tabIdents_line_chars _ _ _ (uniqueGoIdent_clean [] "Content")
        (by intro c hc he; subst he; revert hc; decide),
      attrLoop_tabIdents ats (uniqueGoIdent [] "Content").2 _ hats,
      childLoop_tabIdents kids (qualName anc nm) _ kt [] hnn hkt hkids,
      attrLoop_snd]
    simp [identChain_append, show tabIdentsL (splitNl []) = [] from rfl,
      show ((if true then ["Content"] else []) : List String) = ["Content"] from rfl]
    rw [show identChain [] ("Content" :: (ats ++ List.map NodeDesc.name kids)) =
      (uniqueGoIdent [] "Content").1 ::
        identChain (uniqueGoIdent [] "Content").2 (ats ++ List.map NodeDesc.name kids)
      from rfl, identChain_append]

/-- C3 (corrected): within one emitted record body, the field identifiers that
generate assigns through uniqueGoIdent (the Content field, the attribute
fields and the child fields) are pairwise distinct, for any attribute and
child names without line breaks (XML names cannot contain them). The other
half of the original claim is refuted by
Xml2Go.qualified_type_names_not_unique: the qualified ancestor-chain naming
does not guarantee type-name uniqueness, and the fixed XMLName field of
top-level records is not protected against colliding attribute names. -/
theorem record_body_field_idents_nodup (anc : List String)
    (kt : List (NodeDesc × String)) (n : NodeDesc)
    (hats : ∀ a ∈ n.attributes, ∀ c ∈ a.toList, ¬ c = '\n')
    (hkids : ∀ k ∈ n.children, ∀ c ∈ k.name.toList, ¬ c = '\n')
    (hkt : ∀ p ∈ kt, ∀ c ∈ p.2.toList, ¬ c = '\n') :
    (tabIdents (bodyText anc kt n)).Nodup := by
  cases n with
  | mk nm ia h ats kids =>
    simp only [NodeDesc.attributes_mk] at hats
    simp only [NodeDesc.children_mk] at hkids
    rw [bodyText_tabIdents anc kt nm ia h ats kids hats hkids hkt]
    exact identChain_nodup _

/-- Witness for the amended C3 theorem at a record with a Content field, an
attribute that clashes with it, and a child that clashes with both. -/
theorem record_body_field_idents_nodup_witness :
    (tabIdents (bodyText [] [] (NodeDesc.mk "r" false true ["Content", "a"]
        [NodeDesc.mk "Content" true false [] []]))).Nodup :=
  record_body_field_idents_nodup [] [] _ (by decide) (by decide) (by decide)

end Xml2Go
